import Mathlib

/-!
Shallow embedding of the core engine of the UnnamedGame repository
(grid model, connectivity, pattern matching, scoring, wave state machine,
run phase machine and weighted item selection), together with theorems
that settle the specification claims against the code.

Conventions of the embedding:
* TypeScript numbers that only ever hold integers are modelled as Nat or
  Int; numbers that may become fractional through bonus hooks
  (multipliers, points) are modelled as Rat, with Math.ceil as Rat.ceil.
* Mutation is modelled by explicit state passing: every method that
  mutates an object becomes a function returning the updated value.
* Math.random is modelled by passing the drawn values in as arguments
  (a fresh random grid, or a stream of unit draws for weighted sampling).
* JavaScript array indexing is modelled with List.getD, using the
  same defaults the code relies on (valid indices in all guarded paths).
-/

namespace UnnamedGame

/-- Single cell type: empty, filled or wildcard (enum Cell in the source). -/
inductive Cell where
  | O
  | X
  | W
deriving DecidableEq, Repr

/-- A rectangular grid of cells, rows major, cols minor (class Grid). -/
structure Grid where
  rows : Nat
  cols : Nat
  cells : List Cell
deriving DecidableEq, Repr

namespace GridParse

/-- Drop whitespace at both ends of a character list (String.prototype.trim). -/
def trimChars (l : List Char) : List Char :=
  ((l.dropWhile Char.isWhitespace).reverse.dropWhile Char.isWhitespace).reverse

/-- Split a character list on the slash separator (s.split in Grid.parse). -/
def splitSlash : List Char → List Char → List (List Char)
  | [], acc => [acc.reverse]
  | c :: rest, acc =>
    if c = '/' then acc.reverse :: splitSlash rest []
    else splitSlash rest (c :: acc)

/-- Parse one character of a grid row (the character switch in Grid.parse). -/
def parseChar (c : Char) : Except String Cell :=
  if c = 'x' then .ok Cell.X
  else if c = '-' then .ok Cell.O
  else if c = '#' then .ok Cell.W
  else .error "Grid.parse: Invalid character"

/-- Parse one row, enforcing the common row length (Grid.parse row loop). -/
def parseRow (cols : Nat) (line : List Char) : Except String (List Cell) :=
  if line.length = cols then line.mapM parseChar
  else .error "Grid.parse: Inconsistent row lengths"

end GridParse

/-- Grid.parse from the source: rows joined by the slash character,
x = Filled, - = Empty, # = Wildcard; errors on inconsistent row lengths
or unrecognized characters. -/
def Grid.parse (s : String) : Except String Grid :=
  let lines := GridParse.splitSlash (GridParse.trimChars s.toList) []
  let cols := (lines.getD 0 []).length
  (lines.mapM (GridParse.parseRow cols)).map fun rows =>
    ⟨lines.length, cols, rows.flatten⟩

/-- A grid cell is non-Empty (Filled or Wildcard); out-of-range reads
default to Empty, matching the guarded access in the source. -/
def nonEmptyAt (g : Grid) (i : Nat) : Prop :=
  g.cells.getD i Cell.O ≠ Cell.O

instance (g : Grid) (i : Nat) : Decidable (nonEmptyAt g i) := by
  unfold nonEmptyAt; infer_instance

-- Pattern matching

/-- A matchable pattern item: a sub-grid template and a base point value. -/
structure Pattern where
  name : String
  grid : Grid
  points : Rat
deriving DecidableEq, Repr

/-- The per-cell comparison rule of findMatches: a pair mismatches only if
both sides are non-Wildcard and unequal. -/
def cellMatch (p c : Cell) : Prop := ¬(p ≠ c ∧ p ≠ Cell.W ∧ c ≠ Cell.W)

instance (p c : Cell) : Decidable (cellMatch p c) := by
  unfold cellMatch; infer_instance

/-- The bounding-box test of findMatches for anchor i. -/
def fitsAt (pg g : Grid) (i : Nat) : Prop :=
  i / g.cols + pg.rows ≤ g.rows ∧ i % g.cols + pg.cols ≤ g.cols

instance (pg g : Grid) (i : Nat) : Decidable (fitsAt pg g i) := by
  unfold fitsAt; infer_instance

/-- The inner cell-by-cell loop of findMatches at anchor i. -/
def matchAt (pg g : Grid) (i : Nat) : Prop :=
  ∀ j < pg.rows * pg.cols,
    cellMatch (pg.cells.getD j Cell.O)
      (g.cells.getD (i + j / pg.cols * g.cols + j % pg.cols) Cell.O)

instance (pg g : Grid) (i : Nat) : Decidable (matchAt pg g i) := by
  unfold matchAt; infer_instance

/-- findMatches from the source: scan all anchors in row-major order,
keep those whose bounding box fits and whose cells all match. -/
def findMatches (pattern : Pattern) (grid : Grid) : List Nat :=
  (List.range (grid.rows * grid.cols)).filter fun i =>
    decide (fitsAt pattern.grid grid i ∧ matchAt pattern.grid grid i)

theorem mem_findMatches (pattern : Pattern) (grid : Grid) (i : Nat) :
    i ∈ findMatches pattern grid ↔
      i < grid.rows * grid.cols ∧ fitsAt pattern.grid grid i ∧
        matchAt pattern.grid grid i := by
  simp [findMatches, List.mem_filter, List.mem_range, and_assoc]

theorem findMatches_sorted (pattern : Pattern) (grid : Grid) :
    (findMatches pattern grid).Pairwise (· < ·) :=
  (List.pairwise_lt_range _).filter _

-- Grid geometry: 4-neighbourhood adjacency of flat (row-major) cell indices

/-- Two flat indices are 4-adjacent in grid g: both in range, and either
horizontal neighbours in the same row or vertical neighbours in the same
column (no diagonals, no wrap-around). -/
def Adj (g : Grid) (a b : Nat) : Prop :=
  a < g.rows * g.cols ∧ b < g.rows * g.cols ∧
    ((a / g.cols = b / g.cols ∧ (b = a + 1 ∨ a = b + 1)) ∨
     (a % g.cols = b % g.cols ∧ (b = a + g.cols ∨ a = b + g.cols)))

theorem Adj.flip {g : Grid} {a b : Nat} (h : Adj g a b) : Adj g b a := by
  obtain ⟨ha, hb, hc⟩ := h
  exact ⟨hb, ha, by tauto⟩

theorem cols_pos {g : Grid} {x : Nat} (h : x < g.rows * g.cols) : 0 < g.cols := by
  rcases Nat.eq_zero_or_pos g.cols with h0 | h0
  · rw [h0, Nat.mul_zero] at h; omega
  · exact h0

theorem div_lt_rows {g : Grid} {x : Nat} (h : x < g.rows * g.cols) :
    x / g.cols < g.rows :=
  (Nat.div_lt_iff_lt_mul (cols_pos h)).mpr h

theorem div_mod_of_decomp {cols q r : Nat} (hc : 0 < cols) (hr : r < cols) :
    (cols * q + r) / cols = q ∧ (cols * q + r) % cols = r := by
  constructor
  · rw [Nat.mul_add_div hc, Nat.div_eq_of_lt hr, Nat.add_zero]
  · rw [Nat.mul_add_mod, Nat.mod_eq_of_lt hr]

theorem right_lt {g : Grid} {idx : Nat} (hidx : idx < g.rows * g.cols)
    (h2 : idx % g.cols + 2 ≤ g.cols) : idx + 1 < g.rows * g.cols := by
  have hc : 0 < g.cols := cols_pos hidx
  have hd := Nat.div_add_mod idx g.cols
  have hq : idx / g.cols < g.rows := div_lt_rows hidx
  have h5 : g.cols * (idx / g.cols + 1) ≤ g.cols * g.rows :=
    Nat.mul_le_mul_left _ (by omega)
  have h6 : g.cols * (idx / g.cols + 1) = g.cols * (idx / g.cols) + g.cols :=
    Nat.mul_succ _ _
  have h7 : g.cols * g.rows = g.rows * g.cols := Nat.mul_comm _ _
  omega

theorem down_lt {g : Grid} {idx : Nat} (hidx : idx < g.rows * g.cols)
    (h4 : idx / g.cols + 2 ≤ g.rows) : idx + g.cols < g.rows * g.cols := by
  have hc : 0 < g.cols := cols_pos hidx
  have hd := Nat.div_add_mod idx g.cols
  have hr : idx % g.cols < g.cols := Nat.mod_lt _ hc
  have h5 : g.cols * (idx / g.cols + 2) ≤ g.cols * g.rows :=
    Nat.mul_le_mul_left _ h4
  have h6 : g.cols * (idx / g.cols + 2) =
      g.cols * (idx / g.cols) + g.cols + g.cols := by
    rw [Nat.mul_succ, Nat.mul_succ]
  have h7 : g.cols * g.rows = g.rows * g.cols := Nat.mul_comm _ _
  omega

theorem adj_left {g : Grid} {idx : Nat} (hidx : idx < g.rows * g.cols)
    (h1 : 1 ≤ idx % g.cols) : Adj g idx (idx - 1) := by
  have hc : 0 < g.cols := cols_pos hidx
  have hd := Nat.div_add_mod idx g.cols
  have hr : idx % g.cols < g.cols := Nat.mod_lt _ hc
  have hdec : idx - 1 = g.cols * (idx / g.cols) + (idx % g.cols - 1) := by omega
  have hdm := div_mod_of_decomp (q := idx / g.cols) (r := idx % g.cols - 1) hc
    (by omega)
  refine ⟨hidx, by omega, Or.inl ⟨?_, Or.inr (by omega)⟩⟩
  rw [hdec, hdm.1]

theorem adj_right {g : Grid} {idx : Nat} (hidx : idx < g.rows * g.cols)
    (h2 : idx % g.cols + 2 ≤ g.cols) : Adj g idx (idx + 1) := by
  have hc : 0 < g.cols := cols_pos hidx
  have hd := Nat.div_add_mod idx g.cols
  have hdec : idx + 1 = g.cols * (idx / g.cols) + (idx % g.cols + 1) := by omega
  have hdm := div_mod_of_decomp (q := idx / g.cols) (r := idx % g.cols + 1) hc
    (by omega)
  refine ⟨hidx, right_lt hidx h2, Or.inl ⟨?_, Or.inl rfl⟩⟩
  rw [hdec, hdm.1]

theorem adj_up {g : Grid} {idx : Nat} (hidx : idx < g.rows * g.cols)
    (h3 : 1 ≤ idx / g.cols) : Adj g idx (idx - g.cols) := by
  have hc : 0 < g.cols := cols_pos hidx
  have hd := Nat.div_add_mod idx g.cols
  have hr : idx % g.cols < g.cols := Nat.mod_lt _ hc
  obtain ⟨q', hq'⟩ : ∃ q', idx / g.cols = q' + 1 := ⟨idx / g.cols - 1, by omega⟩
  have hmul : g.cols * (q' + 1) = g.cols * q' + g.cols := Nat.mul_succ _ _
  have hdec : idx - g.cols = g.cols * q' + idx % g.cols := by
    rw [hq'] at hd; omega
  have hdm := div_mod_of_decomp (q := q') (r := idx % g.cols) hc hr
  refine ⟨hidx, by omega, Or.inr ⟨?_, Or.inr (by rw [hq'] at hd; omega)⟩⟩
  rw [hdec, hdm.2]

theorem adj_down {g : Grid} {idx : Nat} (hidx : idx < g.rows * g.cols)
    (h4 : idx / g.cols + 2 ≤ g.rows) : Adj g idx (idx + g.cols) :=
  ⟨hidx, down_lt hidx h4, Or.inr ⟨(Nat.add_mod_right _ _).symm, Or.inl rfl⟩⟩

/-- Inversion: a cell 4-adjacent to idx is one of the four neighbours the
source visits, with the corresponding boundary guard satisfied. -/
theorem adj_cases {g : Grid} {a b : Nat} (h : Adj g a b) :
    (b = a + 1 ∧ a % g.cols + 2 ≤ g.cols) ∨
    (a = b + 1 ∧ 1 ≤ a % g.cols) ∨
    (b = a + g.cols ∧ a / g.cols + 2 ≤ g.rows) ∨
    (a = b + g.cols ∧ 1 ≤ a / g.cols) := by
  obtain ⟨ha, hb, hcase⟩ := h
  have hc : 0 < g.cols := cols_pos ha
  have hd := Nat.div_add_mod a g.cols
  have hrlt : a % g.cols < g.cols := Nat.mod_lt _ hc
  rcases hcase with ⟨hdiv, hb1 | hb1⟩ | ⟨hmod, hb1 | hb1⟩
  · left
    refine ⟨hb1, ?_⟩
    by_contra hcon
    have hr : a % g.cols = g.cols - 1 := by omega
    have hmul : g.cols * (a / g.cols + 1) = g.cols * (a / g.cols) + g.cols :=
      Nat.mul_succ _ _
    have heq : a + 1 = g.cols * (a / g.cols + 1) := by omega
    have hdiv2 : (a + 1) / g.cols = a / g.cols + 1 := by
      rw [heq, Nat.mul_div_cancel_left _ hc]
    rw [← hb1] at hdiv2
    omega
  · right; left
    refine ⟨hb1, ?_⟩
    by_contra hcon
    have hr : a % g.cols = 0 := by omega
    obtain ⟨q', hq'⟩ : ∃ q', a / g.cols = q' + 1 := by
      rcases Nat.eq_zero_or_pos (a / g.cols) with h0 | h0
      · rw [h0, Nat.mul_zero] at hd; omega
      · exact ⟨a / g.cols - 1, by omega⟩
    have hmul : g.cols * (q' + 1) = g.cols * q' + g.cols := Nat.mul_succ _ _
    have hbdec : b = g.cols * q' + (g.cols - 1) := by rw [hq'] at hd; omega
    have hdm := div_mod_of_decomp (q := q') (r := g.cols - 1) hc (by omega)
    rw [hbdec] at hdiv
    rw [hdm.1, hq'] at hdiv
    omega
  · right; right; left
    refine ⟨hb1, ?_⟩
    have hbdec : b = g.cols * (a / g.cols + 1) + a % g.cols := by
      rw [Nat.mul_succ]; omega
    have hdm := div_mod_of_decomp (q := a / g.cols + 1) (r := a % g.cols) hc hrlt
    have : b / g.cols < g.rows := div_lt_rows hb
    rw [hbdec, hdm.1] at this
    omega
  · right; right; right
    refine ⟨hb1, ?_⟩
    exact (Nat.one_le_div_iff hc).mpr (by omega)

-- Connectivity: paths of non-Empty cells along the 4-neighbourhood

/-- a and b are joined by a 4-connected path of non-Empty cells. -/
inductive Connected (g : Grid) : Nat → Nat → Prop where
  | refl (a : Nat) (ha : a < g.rows * g.cols) (hne : nonEmptyAt g a) :
      Connected g a a
  | tail {a b c : Nat} : Connected g a b → Adj g b c → nonEmptyAt g c →
      Connected g a c

theorem Connected.nonEmpty_right {g : Grid} {a b : Nat}
    (h : Connected g a b) : nonEmptyAt g b := by
  induction h with
  | refl _ hne => exact hne
  | tail _ _ hne _ => exact hne

theorem Connected.nonEmpty_left {g : Grid} {a b : Nat}
    (h : Connected g a b) : nonEmptyAt g a := by
  induction h with
  | refl _ hne => exact hne
  | tail _ _ _ ih => exact ih

theorem Connected.lt_left {g : Grid} {a b : Nat}
    (h : Connected g a b) : a < g.rows * g.cols := by
  induction h with
  | refl ha _ => exact ha
  | tail _ _ _ ih => exact ih

theorem Connected.trans {g : Grid} {a b c : Nat}
    (h1 : Connected g a b) (h2 : Connected g b c) : Connected g a c := by
  induction h2 with
  | refl _ _ => exact h1
  | tail _ hadj hne ih => exact Connected.tail ih hadj hne

theorem Connected.head {g : Grid} {a b c : Nat} (hadj : Adj g a b)
    (hne : nonEmptyAt g a) (h : Connected g b c) : Connected g a c := by
  induction h with
  | refl _ hneb => exact Connected.tail (Connected.refl a hadj.1 hne) hadj hneb
  | tail _ hadj2 hne2 ih => exact Connected.tail ih hadj2 hne2

theorem Connected.symm {g : Grid} {a b : Nat}
    (h : Connected g a b) : Connected g b a := by
  induction h with
  | refl ha hne => exact Connected.refl _ ha hne
  | tail hab hadj hne ih => exact Connected.head hadj.flip hne ih

theorem connected_of_adj {g : Grid} {a b : Nat} (hadj : Adj g a b)
    (ha : nonEmptyAt g a) (hb : nonEmptyAt g b) : Connected g a b :=
  Connected.tail (Connected.refl a hadj.1 ha) hadj hb

-- Connected components (Grid.getComponents): depth-first search state

/-- List.getD after List.set at the same (valid) position. -/
theorem getD_set_self {α : Type} {l : List α} {i : Nat} {v d : α}
    (h : i < l.length) : (l.set i v).getD i d = v := by
  simp [List.getD_eq_getElem?_getD, List.getElem?_set, h]

/-- List.getD after List.set at a different position. -/
theorem getD_set_ne {α : Type} {l : List α} {i j : Nat} {v d : α}
    (h : i ≠ j) : (l.set i v).getD j d = l.getD j d := by
  simp [List.getD_eq_getElem?_getD, List.getElem?_set, h]

/-- The mutable DFS state of Grid.getComponents: the components list (each
component a list of flat indices in discovery order) and the per-cell
component lookup (null for unassigned / Empty cells). -/
structure CompState where
  components : List (List Nat)
  cellToComp : List (Option Nat)

/-- The per-cell component lookup (cellToComponent[i] in the source). -/
def CompState.comp (s : CompState) (i : Nat) : Option Nat :=
  s.cellToComp.getD i none

/-- One assignment step of the DFS: components[k].push(idx) together with
cellToComponent[idx] = k. -/
def CompState.push (s : CompState) (k idx : Nat) : CompState :=
  ⟨s.components.set k (s.components.getD k [] ++ [idx]),
    s.cellToComp.set idx (some k)⟩

/-- Number of still-unassigned entries of the lookup (termination measure). -/
def cnone (s : CompState) : Nat := s.cellToComp.countP (fun o => o.isNone)

theorem push_len (s : CompState) (k idx : Nat) :
    (s.push k idx).cellToComp.length = s.cellToComp.length := by
  simp [CompState.push]

theorem push_clen (s : CompState) (k idx : Nat) :
    (s.push k idx).components.length = s.components.length := by
  simp [CompState.push]

theorem push_comp_self {s : CompState} {k idx : Nat}
    (h : idx < s.cellToComp.length) : (s.push k idx).comp idx = some k :=
  getD_set_self h

theorem push_comp_ne (s : CompState) (k : Nat) {idx c : Nat}
    (h : c ≠ idx) : (s.push k idx).comp c = s.comp c :=
  getD_set_ne (fun he => h he.symm)

theorem countP_set_isNone {l : List (Option Nat)} {i k : Nat}
    (hi : i < l.length) (hnone : l.getD i none = none) :
    (l.set i (some k)).countP (fun o => o.isNone) + 1 =
      l.countP (fun o => o.isNone) := by
  induction l generalizing i with
  | nil => simp at hi
  | cons hd tl ih =>
    cases i with
    | zero =>
      simp [List.getD] at hnone
      subst hnone
      simp [List.countP_cons]
    | succ j =>
      have hj : j < tl.length := by simpa using hi
      have hn : tl.getD j none = none := by simpa [List.getD] using hnone
      have := ih hj hn
      simp only [List.set_cons_succ, List.countP_cons]
      omega

theorem push_cnone {s : CompState} {k idx : Nat}
    (hi : idx < s.cellToComp.length) (hnone : s.comp idx = none) :
    cnone (s.push k idx) + 1 = cnone s := by
  exact countP_set_isNone hi hnone

/-- Consistency of the components list with the per-cell lookup. -/
structure Rep (s : CompState) : Prop where
  memIff : ∀ kk i, i ∈ s.components.getD kk [] ↔ s.comp i = some kk
  bound : ∀ i kk, s.comp i = some kk → kk < s.components.length
  nodup : ∀ kk, (s.components.getD kk []).Nodup

theorem push_rep {s : CompState} {k idx : Nat} (hrep : Rep s)
    (hnone : s.comp idx = none) (hi : idx < s.cellToComp.length)
    (hk : k < s.components.length) : Rep (s.push k idx) := by
  have hcompeq : ∀ c, c ≠ idx → (s.push k idx).comp c = s.comp c :=
    fun c hc => push_comp_ne s k hc
  have hcompidx : (s.push k idx).comp idx = some k := push_comp_self hi
  have hgetk : (s.push k idx).components.getD k [] =
      s.components.getD k [] ++ [idx] := getD_set_self hk
  have hgetne : ∀ kk, kk ≠ k → (s.push k idx).components.getD kk [] =
      s.components.getD kk [] :=
    fun kk hkk => getD_set_ne (fun he => hkk he.symm)
  have hninK : ∀ kk, idx ∉ s.components.getD kk [] := by
    intro kk hm
    have := (hrep.memIff kk idx).mp hm
    rw [hnone] at this
    exact Option.noConfusion this
  constructor
  · intro kk i
    by_cases hkk : kk = k
    · rw [hkk, hgetk]
      by_cases hik : i = idx
      · rw [hik, hcompidx]
        simp
      · rw [hcompeq i hik, List.mem_append, List.mem_singleton]
        constructor
        · rintro (hm | hm)
          · exact (hrep.memIff k i).mp hm
          · exact absurd hm hik
        · intro hm
          exact Or.inl ((hrep.memIff k i).mpr hm)
    · rw [hgetne kk hkk]
      by_cases hik : i = idx
      · rw [hik, hcompidx]
        constructor
        · intro hm
          exact absurd hm (hninK kk)
        · intro hm
          exact absurd (Option.some.inj hm).symm hkk
      · rw [hcompeq i hik]
        exact hrep.memIff kk i
  · intro i kk hki
    rw [push_clen]
    by_cases hik : i = idx
    · rw [hik, hcompidx] at hki
      exact (Option.some.inj hki) ▸ hk
    · rw [hcompeq i hik] at hki
      exact hrep.bound i kk hki
  · intro kk
    by_cases hkk : kk = k
    · rw [hkk, hgetk]
      rw [List.nodup_append]
      exact ⟨hrep.nodup k, List.nodup_singleton idx,
        fun a ha hb => hninK k ((List.mem_singleton.mp hb) ▸ ha)⟩
    · rw [hgetne kk hkk]
      exact hrep.nodup kk

-- The recursive visit of getComponents, with its intrinsic specification

/-- Facts relating the DFS state before and after a group of visit calls
rooted at root: lengths and the unassigned count are controlled, existing
assignments are preserved, and every new assignment is a non-Empty
in-range cell of component k, connected to root, with all its non-Empty
neighbours assigned afterwards. -/
structure Chain (g : Grid) (k root : Nat) (s t : CompState) : Prop where
  len : t.cellToComp.length = s.cellToComp.length
  clen : t.components.length = s.components.length
  cle : cnone t ≤ cnone s
  mono : ∀ c m, s.comp c = some m → t.comp c = some m
  newk : ∀ c, t.comp c ≠ s.comp c →
    s.comp c = none ∧ t.comp c = some k ∧ nonEmptyAt g c ∧ c < g.rows * g.cols
  conn : ∀ c, t.comp c ≠ s.comp c → Connected g root c
  closed : ∀ c, t.comp c ≠ s.comp c →
    ∀ d, Adj g c d → nonEmptyAt g d → t.comp d ≠ none
  rep : k < s.components.length → Rep s → Rep t

theorem chain_id (g : Grid) (k root : Nat) (s : CompState) :
    Chain g k root s s where
  len := rfl
  clen := rfl
  cle := le_refl _
  mono := fun _ _ h => h
  newk := fun _ hc => absurd rfl hc
  conn := fun _ hc => absurd rfl hc
  closed := fun _ hc => absurd rfl hc
  rep := fun _ h => h

theorem Chain.comb {g : Grid} {k root : Nat} {s t u : CompState}
    (h1 : Chain g k root s t) (h2 : Chain g k root t u) :
    Chain g k root s u := by
  have split : ∀ c, u.comp c ≠ s.comp c →
      u.comp c ≠ t.comp c ∨ (t.comp c ≠ s.comp c ∧ u.comp c = t.comp c) := by
    intro c hc
    by_cases hut : u.comp c = t.comp c
    · exact Or.inr ⟨fun he => hc (hut.trans he), hut⟩
    · exact Or.inl hut
  have snone : ∀ c, t.comp c = none → s.comp c = none := by
    intro c htc
    cases hsc : s.comp c with
    | none => rfl
    | some m => exact absurd (h1.mono c m hsc) (by rw [htc]; simp)
  refine ⟨h2.len.trans h1.len, h2.clen.trans h1.clen, le_trans h2.cle h1.cle,
    fun c m hm => h2.mono c m (h1.mono c m hm), ?_, ?_, ?_, ?_⟩
  · intro c hc
    rcases split c hc with hut | ⟨hts, hut⟩
    · obtain ⟨hn, hs, hne, hlt⟩ := h2.newk c hut
      exact ⟨snone c hn, hs, hne, hlt⟩
    · obtain ⟨hn, hs, hne, hlt⟩ := h1.newk c hts
      exact ⟨hn, hut.trans hs, hne, hlt⟩
  · intro c hc
    rcases split c hc with hut | ⟨hts, _⟩
    · exact h2.conn c hut
    · exact h1.conn c hts
  · intro c hc d hadj hne
    rcases split c hc with hut | ⟨hts, _⟩
    · exact h2.closed c hut d hadj hne
    · have h1c := h1.closed c hts d hadj hne
      cases hdt : t.comp d with
      | none => exact absurd hdt h1c
      | some m => rw [h2.mono d m hdt]; simp
  · intro hk hrep
    exact h2.rep (h1.clen ▸ hk) (h1.rep hk hrep)

/-- The full postcondition of one visit call: a Chain rooted at the visited
index, plus the guarantee that the visited cell ends up assigned when it is
non-Empty. -/
structure VisitSpec (g : Grid) (k idx : Nat) (s t : CompState)
    extends Chain g k idx s t : Prop where
  covers : nonEmptyAt g idx → t.comp idx ≠ none

/-- Re-root the Chain of a nested visit call at a 4-adjacent cell. -/
theorem Chain.reroot {g : Grid} {k root nb : Nat} {s t : CompState}
    (v : VisitSpec g k nb s t) (hadj : Adj g root nb)
    (hroot : nonEmptyAt g root) : Chain g k root s t where
  len := v.len
  clen := v.clen
  cle := v.cle
  mono := v.mono
  newk := v.newk
  conn := fun c hc => Connected.head hadj hroot (v.conn c hc)
  closed := v.closed
  rep := v.rep

/-- The recursive visit closure of Grid.getComponents: if the cell is
non-Empty and unassigned, assign it to component k and recursively visit
its in-range left, right, up and down neighbours, in that order. -/
def visit (g : Grid) (k idx : Nat) (s : CompState)
    (hlen : s.cellToComp.length = g.rows * g.cols)
    (hidx : idx < g.rows * g.cols) :
    {t : CompState // VisitSpec g k idx s t} :=
  if hguard : nonEmptyAt g idx ∧ s.comp idx = none then
    let s0 := s.push k idx
    have h0len : s0.cellToComp.length = g.rows * g.cols :=
      (push_len s k idx).trans hlen
    have h0cn : cnone s0 < cnone s := by
      show cnone (s.push k idx) < cnone s
      have h := push_cnone (k := k) (show idx < s.cellToComp.length by omega)
        hguard.2
      omega
    let r1 : {t : CompState // Chain g k idx s0 t ∧
        (1 ≤ idx % g.cols → nonEmptyAt g (idx - 1) →
          t.comp (idx - 1) ≠ none)} :=
      if h1 : 1 ≤ idx % g.cols then
        let v := visit g k (idx - 1) s0 h0len (by omega)
        ⟨v.val, Chain.reroot v.prop (adj_left hidx h1) hguard.1,
          fun _ hne => v.prop.covers hne⟩
      else ⟨s0, chain_id g k idx s0, fun hc => absurd hc h1⟩
    let r2 : {t : CompState // Chain g k idx r1.val t ∧
        (idx % g.cols + 2 ≤ g.cols → nonEmptyAt g (idx + 1) →
          t.comp (idx + 1) ≠ none)} :=
      if h2 : idx % g.cols + 2 ≤ g.cols then
        let v := visit g k (idx + 1) r1.val (r1.prop.1.len.trans h0len)
          (right_lt hidx h2)
        ⟨v.val, Chain.reroot v.prop (adj_right hidx h2) hguard.1,
          fun _ hne => v.prop.covers hne⟩
      else ⟨r1.val, chain_id g k idx r1.val, fun hc => absurd hc h2⟩
    let r3 : {t : CompState // Chain g k idx r2.val t ∧
        (1 ≤ idx / g.cols → nonEmptyAt g (idx - g.cols) →
          t.comp (idx - g.cols) ≠ none)} :=
      if h3 : 1 ≤ idx / g.cols then
        let v := visit g k (idx - g.cols) r2.val
          (r2.prop.1.len.trans (r1.prop.1.len.trans h0len)) (by omega)
        ⟨v.val, Chain.reroot v.prop (adj_up hidx h3) hguard.1,
          fun _ hne => v.prop.covers hne⟩
      else ⟨r2.val, chain_id g k idx r2.val, fun hc => absurd hc h3⟩
    let r4 : {t : CompState // Chain g k idx r3.val t ∧
        (idx / g.cols + 2 ≤ g.rows → nonEmptyAt g (idx + g.cols) →
          t.comp (idx + g.cols) ≠ none)} :=
      if h4 : idx / g.cols + 2 ≤ g.rows then
        let v := visit g k (idx + g.cols) r3.val
          (r3.prop.1.len.trans (r2.prop.1.len.trans (r1.prop.1.len.trans h0len)))
          (down_lt hidx h4)
        ⟨v.val, Chain.reroot v.prop (adj_down hidx h4) hguard.1,
          fun _ hne => v.prop.covers hne⟩
      else ⟨r3.val, chain_id g k idx r3.val, fun hc => absurd hc h4⟩
    ⟨r4.val, by
      have c1 := r1.prop.1
      have c2 := r2.prop.1
      have c3 := r3.prop.1
      have c4 := r4.prop.1
      have cc : Chain g k idx s0 r4.val := ((c1.comb c2).comb c3).comb c4
      have hs0idx : s0.comp idx = some k :=
        push_comp_self (show idx < s.cellToComp.length by omega)
      have hr4idx : r4.val.comp idx = some k := cc.mono idx k hs0idx
      have lift4 : ∀ x, r3.val.comp x ≠ none → r4.val.comp x ≠ none := by
        intro x hx
        cases hx' : r3.val.comp x with
        | none => exact absurd hx' hx
        | some m => rw [c4.mono x m hx']; simp
      have lift34 : ∀ x, r2.val.comp x ≠ none → r4.val.comp x ≠ none := by
        intro x hx
        apply lift4
        cases hx' : r2.val.comp x with
        | none => exact absurd hx' hx
        | some m => rw [c3.mono x m hx']; simp
      have lift234 : ∀ x, r1.val.comp x ≠ none → r4.val.comp x ≠ none := by
        intro x hx
        apply lift34
        cases hx' : r1.val.comp x with
        | none => exact absurd hx' hx
        | some m => rw [c2.mono x m hx']; simp
      have hs0ne : ∀ c, c ≠ idx → s0.comp c = s.comp c :=
        fun c hc => push_comp_ne s k hc
      refine ⟨⟨cc.len.trans (push_len s k idx),
        cc.clen.trans (push_clen s k idx),
        le_trans cc.cle (le_of_lt h0cn), ?_, ?_, ?_, ?_, ?_⟩, ?_⟩
      · intro c m hm
        have hci : c ≠ idx := by
          intro he
          rw [he, hguard.2] at hm
          exact Option.noConfusion hm
        exact cc.mono c m ((hs0ne c hci).trans hm)
      · intro c hc
        by_cases hci : c = idx
        · rw [hci]
          exact ⟨hguard.2, hr4idx, hguard.1, hidx⟩
        · have hchanged : r4.val.comp c ≠ s0.comp c := by
            rw [hs0ne c hci]; exact hc
          obtain ⟨hn, hs, hne, hlt⟩ := cc.newk c hchanged
          rw [hs0ne c hci] at hn
          exact ⟨hn, hs, hne, hlt⟩
      · intro c hc
        by_cases hci : c = idx
        · rw [hci]
          exact Connected.refl idx hidx hguard.1
        · exact cc.conn c (by rw [hs0ne c hci]; exact hc)
      · intro c hc d hadj hned
        by_cases hci : c = idx
        · rcases adj_cases (hci ▸ hadj) with ⟨hd, hg⟩ | ⟨hd, hg⟩ | ⟨hd, hg⟩ | ⟨hd, hg⟩
          · rw [hd]
            exact lift34 (idx + 1) (r2.prop.2 hg (by rw [hd] at hned; exact hned))
          · have hd1 : d = idx - 1 := by omega
            rw [hd1]
            exact lift234 (idx - 1)
              (r1.prop.2 hg (by rw [hd1] at hned; exact hned))
          · rw [hd]
            exact r4.prop.2 hg (by rw [hd] at hned; exact hned)
          · have hd3 : d = idx - g.cols := by
              have hcp : 0 < g.cols := cols_pos hidx
              omega
            rw [hd3]
            exact lift4 (idx - g.cols)
              (r3.prop.2 hg (by rw [hd3] at hned; exact hned))
        · exact cc.closed c (by rw [hs0ne c hci]; exact hc) d hadj hned
      · intro hk hrep
        have hrep0 : Rep s0 :=
          push_rep hrep hguard.2 (show idx < s.cellToComp.length by omega) hk
        exact cc.rep (by rw [push_clen]; exact hk) hrep0
      · intro _
        rw [hr4idx]
        simp⟩
  else
    ⟨s, ⟨chain_id g k idx s, fun hne hnone => hguard ⟨hne, hnone⟩⟩⟩
termination_by cnone s
decreasing_by
  · exact h0cn
  · exact lt_of_le_of_lt r1.prop.1.cle h0cn
  · exact lt_of_le_of_lt r2.prop.1.cle
      (lt_of_le_of_lt r1.prop.1.cle h0cn)
  · exact lt_of_le_of_lt r3.prop.1.cle
      (lt_of_le_of_lt r2.prop.1.cle (lt_of_le_of_lt r1.prop.1.cle h0cn))

-- The outer loop of getComponents and its global invariant

/-- getD over an appended empty component list is unchanged. -/
theorem getD_components_append (l : List (List Nat)) (kk : Nat) :
    (l ++ [([] : List Nat)]).getD kk [] = l.getD kk [] := by
  by_cases h : kk < l.length
  · simp [List.getD_eq_getElem?_getD, List.getElem?_append, h]
  · have hr : l.getD kk [] = [] := List.getD_eq_default _ _ (by omega)
    rw [hr]
    by_cases h2 : kk = l.length
    · subst h2
      simp [List.getD_eq_getElem?_getD,
        List.getElem?_append_right (le_refl l.length)]
    · exact List.getD_eq_default _ _
        (by simp only [List.length_append, List.length_singleton]; omega)

/-- Opening a fresh empty component (components.push([])) preserves Rep. -/
theorem rep_append {s : CompState} (hrep : Rep s) :
    Rep ⟨s.components ++ [[]], s.cellToComp⟩ := by
  constructor
  · intro kk i
    show i ∈ (s.components ++ [[]]).getD kk [] ↔ s.comp i = some kk
    rw [getD_components_append]
    exact hrep.memIff kk i
  · intro i kk h
    have := hrep.bound i kk h
    simp only [List.length_append, List.length_singleton]
    omega
  · intro kk
    show ((s.components ++ [[]]).getD kk []).Nodup
    rw [getD_components_append]
    exact hrep.nodup kk

/-- Global invariant of the DFS over the whole scan: assignments cover only
non-Empty in-range cells, are closed under non-Empty adjacency, assign
connected cells of one component, separate distinct components, and stay
consistent with the components list. -/
structure Good (g : Grid) (s : CompState) : Prop where
  dom : ∀ i m, s.comp i = some m → nonEmptyAt g i ∧ i < g.rows * g.cols
  closed : ∀ i, s.comp i ≠ none → ∀ d, Adj g i d → nonEmptyAt g d →
    s.comp d ≠ none
  conn : ∀ i j m, s.comp i = some m → s.comp j = some m → Connected g i j
  sep : ∀ i j mi mj, Connected g i j → s.comp i = some mi →
    s.comp j = some mj → mi = mj
  rep : Rep s

/-- Along any non-Empty path from an assigned cell, closure keeps cells
assigned. -/
theorem reach_assigned {g : Grid} {s : CompState}
    (hcl : ∀ i, s.comp i ≠ none → ∀ d, Adj g i d → nonEmptyAt g d →
      s.comp d ≠ none)
    {a b : Nat} (hab : Connected g a b) (ha : s.comp a ≠ none) :
    s.comp b ≠ none := by
  induction hab with
  | refl _ _ => exact ha
  | tail hC hadj hne ih => exact hcl _ ih _ hadj hne

/-- One guarded iteration of the outer scan loop preserves the global
invariant. -/
theorem good_step {g : Grid} {s : CompState} {r : Nat}
    (hr : r < g.rows * g.cols) (hne : nonEmptyAt g r) (hnone : s.comp r = none)
    {t : CompState}
    (hspec : VisitSpec g s.components.length r
      ⟨s.components ++ [[]], s.cellToComp⟩ t)
    (hg : Good g s) : Good g t := by
  set K := s.components.length with hK
  have hsc : ∀ c, CompState.comp ⟨s.components ++ [[]], s.cellToComp⟩ c =
      s.comp c := fun c => rfl
  have hmono : ∀ c m, s.comp c = some m → t.comp c = some m := by
    intro c m hm
    exact hspec.mono c m ((hsc c).trans hm)
  have hsplit : ∀ c, t.comp c = s.comp c ∨
      (s.comp c = none ∧ t.comp c = some K ∧ nonEmptyAt g c ∧
        c < g.rows * g.cols ∧ Connected g r c ∧
        t.comp c ≠ CompState.comp ⟨s.components ++ [[]], s.cellToComp⟩ c) := by
    intro c
    by_cases hch : t.comp c = CompState.comp ⟨s.components ++ [[]], s.cellToComp⟩ c
    · exact Or.inl (hch.trans (hsc c))
    · obtain ⟨h1, h2, h3, h4⟩ := hspec.newk c hch
      exact Or.inr ⟨(hsc c) ▸ h1, h2, h3, h4, hspec.conn c hch, hch⟩
  have hKfresh : ∀ c m, s.comp c = some m → m < K :=
    fun c m hm => hg.rep.bound c m hm
  constructor
  · intro i m hm
    rcases hsplit i with hi | ⟨_, _, h3, h4, _, _⟩
    · exact hg.dom i m (hi ▸ hm)
    · exact ⟨h3, h4⟩
  · intro i hi d hadj hned
    rcases hsplit i with heq | ⟨_, _, _, _, _, hch⟩
    · have hsi : s.comp i ≠ none := heq ▸ hi
      have := hg.closed i hsi d hadj hned
      cases hd : s.comp d with
      | none => exact absurd hd this
      | some m => rw [hmono d m hd]; simp
    · exact hspec.closed i hch d hadj hned
  · intro i j m hi hj
    rcases hsplit i with hieq | ⟨_, hi2, _, _, hic, _⟩
    · rcases hsplit j with hjeq | ⟨_, hj2, _, _, _, _⟩
      · exact hg.conn i j m (hieq ▸ hi) (hjeq ▸ hj)
      · rw [hj] at hj2
        have hm : m = K := Option.some.inj hj2
        have : m < K := hKfresh i m (hieq ▸ hi)
        omega
    · rcases hsplit j with hjeq | ⟨_, hj2, _, _, hjc, _⟩
      · rw [hi] at hi2
        have hm : m = K := Option.some.inj hi2
        have : m < K := hKfresh j m (hjeq ▸ hj)
        omega
      · exact Connected.trans hic.symm hjc
  · intro i j mi mj hconn hi hj
    rcases hsplit i with hieq | ⟨_, hi2, _, _, hic, _⟩
    · rcases hsplit j with hjeq | ⟨_, hj2, _, _, hjc, _⟩
      · exact hg.sep i j mi mj hconn (hieq ▸ hi) (hjeq ▸ hj)
      · exfalso
        have hij : Connected g i r := Connected.trans hconn hjc.symm
        have : s.comp r ≠ none :=
          reach_assigned hg.closed hij (by rw [← hieq, hi]; simp)
        exact this hnone
    · rcases hsplit j with hjeq | ⟨_, hj2, _, _, hjc, _⟩
      · exfalso
        have hji : Connected g j r := Connected.trans hconn.symm hic.symm
        have : s.comp r ≠ none :=
          reach_assigned hg.closed hji (by rw [← hjeq, hj]; simp)
        exact this hnone
      · rw [hi] at hi2
        rw [hj] at hj2
        have h1 := Option.some.inj hi2
        have h2 := Option.some.inj hj2
        omega
  · exact hspec.rep (by simp) (rep_append hg.rep)

/-- The outer scan loop of Grid.getComponents: for each cell index from i
upwards, open a fresh component and run visit whenever the cell is
non-Empty and unassigned. -/
def compLoop (g : Grid) (i : Nat) (s : CompState)
    (hlen : s.cellToComp.length = g.rows * g.cols) :
    {t : CompState //
      t.cellToComp.length = g.rows * g.cols ∧
      (∀ c m, s.comp c = some m → t.comp c = some m) ∧
      (Good g s → Good g t) ∧
      (∀ c, i ≤ c → c < g.rows * g.cols → nonEmptyAt g c →
        t.comp c ≠ none)} :=
  if h : i < g.rows * g.cols then
    if hb : nonEmptyAt g i ∧ s.comp i = none then
      let v := visit g s.components.length i
        ⟨s.components ++ [[]], s.cellToComp⟩ hlen h
      let rest := compLoop g (i + 1) v.val (v.prop.len.trans hlen)
      ⟨rest.val, by
        obtain ⟨rlen, rmono, rgood, rproc⟩ := rest.prop
        have hvmono : ∀ c m, s.comp c = some m → v.val.comp c = some m :=
          fun c m hm => v.prop.mono c m hm
        refine ⟨rlen, fun c m hm => rmono c m (hvmono c m hm), ?_, ?_⟩
        · intro hgood
          exact rgood (good_step h hb.1 hb.2 v.prop hgood)
        · intro c hic hcn hcne
          rcases Nat.eq_or_lt_of_le hic with hceq | hclt
          · have hvi : v.val.comp i ≠ none := v.prop.covers hb.1
            cases hv : v.val.comp i with
            | none => exact absurd hv hvi
            | some m =>
              rw [← hceq]
              rw [rmono i m hv]
              simp
          · exact rproc c hclt hcn hcne⟩
    else
      let rest := compLoop g (i + 1) s hlen
      ⟨rest.val, by
        obtain ⟨rlen, rmono, rgood, rproc⟩ := rest.prop
        refine ⟨rlen, rmono, rgood, ?_⟩
        intro c hic hcn hcne
        rcases Nat.eq_or_lt_of_le hic with hceq | hclt
        · have hsi : s.comp i ≠ none := by
            intro hn
            rw [← hceq] at hcne
            exact hb ⟨hcne, hn⟩
          cases hv : s.comp i with
          | none => exact absurd hv hsi
          | some m =>
            rw [← hceq, rmono i m hv]
            simp
        · exact rproc c hclt hcn hcne⟩
  else
    ⟨s, hlen, fun _ _ hm => hm, fun hg => hg, fun c hic hcn _ => by omega⟩
termination_by g.rows * g.cols - i

/-- Grid.getComponents from the source: scan all cells in row-major order,
starting a fresh DFS component at each unassigned non-Empty cell. -/
def Grid.getComponents (g : Grid) : CompState :=
  (compLoop g 0 ⟨[], List.replicate (g.rows * g.cols) none⟩ (by simp)).val

theorem comp_replicate_none (n i : Nat) :
    CompState.comp ⟨[], List.replicate n none⟩ i = none := by
  show (List.replicate n (none : Option Nat)).getD i none = none
  rw [List.getD_eq_getElem?_getD, List.getElem?_replicate]
  by_cases h : i < n <;> simp [h]

theorem good_init (g : Grid) :
    Good g ⟨[], List.replicate (g.rows * g.cols) none⟩ := by
  have hz : ∀ i, CompState.comp ⟨[], List.replicate (g.rows * g.cols) none⟩ i =
      none := comp_replicate_none _
  constructor
  · intro i m hm
    rw [hz i] at hm
    exact Option.noConfusion hm
  · intro i hi
    exact absurd (hz i) hi
  · intro i j m hi
    rw [hz i] at hi
    exact Option.noConfusion hi
  · intro i j mi mj _ hi
    rw [hz i] at hi
    exact Option.noConfusion hi
  · constructor
    · intro kk i
      show i ∈ ([] : List (List Nat)).getD kk [] ↔ _
      rw [List.getD_eq_default _ _ (by simp), hz i]
      simp
    · intro i kk hk
      rw [hz i] at hk
      exact Option.noConfusion hk
    · intro kk
      show (([] : List (List Nat)).getD kk []).Nodup
      rw [List.getD_eq_default _ _ (by simp)]
      exact List.nodup_nil

/-- The Good invariant and totality of assignment, for the final DFS state. -/
theorem getComponents_good (g : Grid) :
    Good g g.getComponents ∧
      (∀ c, c < g.rows * g.cols → nonEmptyAt g c →
        (g.getComponents).comp c ≠ none) := by
  obtain ⟨hlen, hmono, hgood, hproc⟩ :=
    (compLoop g 0 ⟨[], List.replicate (g.rows * g.cols) none⟩ (by simp)).prop
  exact ⟨hgood (good_init g), fun c hc hcne => hproc c (Nat.zero_le c) hc hcne⟩

-- Example fixtures used by claims and witnesses

/-- The pattern parsed from the two-row string with rows x- and -x. -/
def patternEx : Pattern :=
  ⟨"x-slash-x", ⟨2, 2, [Cell.X, Cell.O, Cell.O, Cell.X]⟩, 1⟩

/-- The grid parsed from the rows xxx-, -x-x, x-x- (3 rows by 4 cols). -/
def gridEx34 : Grid :=
  ⟨3, 4, [Cell.X, Cell.X, Cell.X, Cell.O,
    Cell.O, Cell.X, Cell.O, Cell.X,
    Cell.X, Cell.O, Cell.X, Cell.O]⟩

/-- C3: findMatches(pattern, grid) returns exactly the flat anchor indices,
in increasing row-major order, at which the pattern bounding box fits fully
inside the grid and every overlapped cell pair satisfies the rule that a
pair mismatches only if both cells are non-Wildcard and unequal; and for
the pattern with rows x-, -x against the grid with rows xxx-, -x-x, x-x-
the result is exactly [2, 5]. -/
theorem c3_findMatches_spec :
    (∀ (p : Pattern) (g : Grid) (i : Nat),
      i ∈ findMatches p g ↔
        i < g.rows * g.cols ∧ fitsAt p.grid g i ∧ matchAt p.grid g i) ∧
    (∀ (p : Pattern) (g : Grid), (findMatches p g).Pairwise (· < ·)) ∧
    Grid.parse "x-/-x" = Except.ok patternEx.grid ∧
    Grid.parse "xxx-/-x-x/x-x-" = Except.ok gridEx34 ∧
    findMatches patternEx gridEx34 = [2, 5] := by
  refine ⟨mem_findMatches, findMatches_sorted, ?_, ?_, ?_⟩
  · rfl
  · rfl
  · decide

/-- Witness for C3 at the concrete example: anchor 2 is a match because the
box fits and all four cell pairs satisfy the comparison rule. -/
theorem c3_findMatches_spec_witness : 2 ∈ findMatches patternEx gridEx34 :=
  (c3_findMatches_spec.1 patternEx gridEx34 2).mpr (by decide)

/-- C4: getComponents partitions exactly the non-Empty cell indices into
components: every non-Empty in-range cell lies in the component recorded by
its lookup entry, Empty or out-of-range cells map to no component, the
components lists agree with the lookup and have no duplicates, two assigned
cells lie in the same component exactly when a 4-connected non-Empty path
joins them, and 4-adjacent non-Empty cells always share a component.
Determinism of the result holds definitionally: Grid.getComponents is a
pure function of the grid. -/
theorem c4_getComponents_partition (g : Grid) :
    (∀ i, i < g.rows * g.cols → nonEmptyAt g i →
      ∃ k, (g.getComponents).comp i = some k ∧
        k < (g.getComponents).components.length ∧
        i ∈ (g.getComponents).components.getD k []) ∧
    (∀ i, ¬(i < g.rows * g.cols ∧ nonEmptyAt g i) →
      (g.getComponents).comp i = none) ∧
    (∀ k i, i ∈ (g.getComponents).components.getD k [] ↔
      (g.getComponents).comp i = some k) ∧
    (∀ k, ((g.getComponents).components.getD k []).Nodup) ∧
    (∀ i j mi mj, (g.getComponents).comp i = some mi →
      (g.getComponents).comp j = some mj → (Connected g i j ↔ mi = mj)) ∧
    (∀ i j, Adj g i j → nonEmptyAt g i → nonEmptyAt g j →
      (g.getComponents).comp i = (g.getComponents).comp j) := by
  obtain ⟨hg, htot⟩ := getComponents_good g
  refine ⟨?_, ?_, ?_, ?_, ?_, ?_⟩
  · intro i hi hne
    cases hv : (g.getComponents).comp i with
    | none => exact absurd hv (htot i hi hne)
    | some k => exact ⟨k, rfl, hg.rep.bound i k hv, (hg.rep.memIff k i).mpr hv⟩
  · intro i hni
    cases hv : (g.getComponents).comp i with
    | none => rfl
    | some m => exact absurd ⟨(hg.dom i m hv).2, (hg.dom i m hv).1⟩ hni
  · exact fun k i => hg.rep.memIff k i
  · exact fun k => hg.rep.nodup k
  · intro i j mi mj hi hj
    constructor
    · intro hc
      exact hg.sep i j mi mj hc hi hj
    · intro he
      exact hg.conn i j mi hi (by rw [he]; exact hj)
  · intro i j hadj hnei hnej
    cases hvi : (g.getComponents).comp i with
    | none => exact absurd hvi (htot i hadj.1 hnei)
    | some mi =>
      cases hvj : (g.getComponents).comp j with
      | none => exact absurd hvj (htot j hadj.2.1 hnej)
      | some mj =>
        have := hg.sep i j mi mj (connected_of_adj hadj hnei hnej) hvi hvj
        rw [this]

/-- Witness for C4 on a concrete 2 by 2 grid with one Empty cell: cell 0 is
assigned to a component that contains it. -/
theorem c4_getComponents_partition_witness :
    ∃ k, (Grid.getComponents ⟨2, 2, [Cell.X, Cell.X, Cell.O, Cell.X]⟩).comp 0 =
        some k ∧
      k < (Grid.getComponents
        ⟨2, 2, [Cell.X, Cell.X, Cell.O, Cell.X]⟩).components.length ∧
      0 ∈ (Grid.getComponents
        ⟨2, 2, [Cell.X, Cell.X, Cell.O, Cell.X]⟩).components.getD k [] :=
  (c4_getComponents_partition ⟨2, 2, [Cell.X, Cell.X, Cell.O, Cell.X]⟩).1 0
    (by decide) (by decide)

/-- C9: replacing any single Filled cell by Wildcard, in the pattern or in
the grid, can only add matches, never remove them, because a cell
comparison never fails when either side is Wildcard. -/
theorem c9_wildcard_monotone (p : Pattern) (g : Grid) (j : Nat) :
    (p.grid.cells.getD j Cell.O = Cell.X →
      ∀ m ∈ findMatches p g,
        m ∈ findMatches
          ⟨p.name, ⟨p.grid.rows, p.grid.cols, p.grid.cells.set j Cell.W⟩,
            p.points⟩ g) ∧
    (g.cells.getD j Cell.O = Cell.X →
      ∀ m ∈ findMatches p g,
        m ∈ findMatches p ⟨g.rows, g.cols, g.cells.set j Cell.W⟩) := by
  constructor
  · intro hX m hm
    have hjlen : j < p.grid.cells.length := by
      by_contra hlen
      rw [List.getD_eq_default _ _ (le_of_not_lt hlen)] at hX
      exact Cell.noConfusion hX
    obtain ⟨hlt, hfit, hmat⟩ := (mem_findMatches p g m).mp hm
    refine (mem_findMatches _ g m).mpr ⟨hlt, hfit, ?_⟩
    intro j' hj'
    show cellMatch ((p.grid.cells.set j Cell.W).getD j' Cell.O) _
    by_cases hjj : j = j'
    · rw [← hjj, getD_set_self hjlen]
      simp [cellMatch]
    · rw [getD_set_ne hjj]
      exact hmat j' hj'
  · intro hX m hm
    have hjlen : j < g.cells.length := by
      by_contra hlen
      rw [List.getD_eq_default _ _ (le_of_not_lt hlen)] at hX
      exact Cell.noConfusion hX
    obtain ⟨hlt, hfit, hmat⟩ := (mem_findMatches p g m).mp hm
    refine (mem_findMatches p _ m).mpr ⟨hlt, hfit, ?_⟩
    intro j' hj'
    show cellMatch _ ((g.cells.set j Cell.W).getD
      (m + j' / p.grid.cols * g.cols + j' % p.grid.cols) Cell.O)
    by_cases hjj : j = m + j' / p.grid.cols * g.cols + j' % p.grid.cols
    · rw [← hjj, getD_set_self hjlen]
      simp [cellMatch]
    · rw [getD_set_ne hjj]
      exact hmat j' hj'

/-- Witness for C9: turning the single Filled pattern cell of a 1 by 1
pattern into a Wildcard keeps the existing match at anchor 0. -/
theorem c9_wildcard_monotone_witness :
    0 ∈ findMatches
      ⟨"one", ⟨1, 1, (([Cell.X] : List Cell).set 0 Cell.W)⟩, (1 : Rat)⟩
      ⟨1, 1, [Cell.X]⟩ :=
  (c9_wildcard_monotone ⟨"one", ⟨1, 1, [Cell.X]⟩, 1⟩ ⟨1, 1, [Cell.X]⟩ 0).1
    (by decide) 0 (by decide)

-- Scoring (ComponentScore, Score, Score.create)

/-- One attributed pattern match inside a component (the entries of
ComponentScore.matches; points starts as pattern.points and may be
rewritten by bonuses). -/
structure MatchRec where
  pattern : Pattern
  patternIndex : Nat
  position : Nat
  points : Rat
deriving DecidableEq, Repr

/-- Per-component score accumulator (class ComponentScore). -/
structure ComponentScore where
  cellIndices : List Nat
  multiplier : Rat
  cellPoints : Rat
  alwaysScoring : Bool
  «matches» : List MatchRec
deriving DecidableEq, Repr

/-- The constructor values of ComponentScore: multiplier 1, cellPoints 1,
alwaysScoring false, no matches. -/
def ComponentScore.base (cells : List Nat) : ComponentScore :=
  ⟨cells, 1, 1, false, []⟩

/-- ComponentScore.addMatch from the source. -/
def ComponentScore.addMatch (c : ComponentScore) (p : Pattern)
    (patternIndex position : Nat) : ComponentScore :=
  { c with «matches» := c.«matches» ++ [⟨p, patternIndex, position, p.points⟩] }

/-- ComponentScore.score: sum the match points in a loop, add the cell
points when there is at least one match or alwaysScoring is set, and take
the ceiling of the product with the component multiplier. -/
def ComponentScore.score (c : ComponentScore) : Int :=
  let total : Rat := c.«matches».foldl (fun acc m => acc + m.points) 0
  let total2 : Rat :=
    if 1 ≤ c.«matches».length ∨ c.alwaysScoring = true then
      total + c.cellIndices.length * c.cellPoints
    else total
  Rat.ceil (c.multiplier * total2)

/-- The whole-grid score accumulator (class Score). -/
structure Score where
  components : List ComponentScore
  cellToComponent : List (Option Nat)
  flatPoints : Rat
  multiplier : Rat
deriving DecidableEq, Repr

/-- Score.total: ceiling of the global multiplier times the sum of the
component scores plus the flat points. -/
def Score.total (sc : Score) : Int :=
  Rat.ceil (sc.multiplier *
    (sc.components.foldl (fun sum comp => sum + (comp.score : Rat)) 0 +
      sc.flatPoints))

/-- The set of component indices touched by a pattern match (the pComponents
Set in Score.create, in first-touch insertion order). -/
def touchedComponents (pg g : Grid) (c2c : List (Option Nat)) (mpos : Nat) :
    List (Option Nat) :=
  (List.range (pg.rows * pg.cols)).foldl
    (fun acc j =>
      let v := c2c.getD (mpos + j / pg.cols * g.cols + j % pg.cols) none
      if v ∈ acc then acc else acc ++ [v]) []

/-- components[k].addMatch(...) as a list update. -/
def addMatchAt (comps : List ComponentScore) (k : Nat) (p : Pattern)
    (pIdx mpos : Nat) : List ComponentScore :=
  comps.set k ((comps.getD k (ComponentScore.base [])).addMatch p pIdx mpos)

/-- Score.create from the source: build one ComponentScore per connected
component, then attribute every match of every pattern (in catalog order)
to each distinct component its box touches. -/
def Score.create (g : Grid) (patterns : List Pattern) : Score :=
  let gridC := g.getComponents
  let comps0 := gridC.components.map ComponentScore.base
  let comps := patterns.enum.foldl
    (fun comps pp =>
      (findMatches pp.2 g).foldl
        (fun comps mpos =>
          (touchedComponents pp.2.grid g gridC.cellToComp mpos).foldl
            (fun comps v =>
              match v with
              | some k => addMatchAt comps k pp.2 pp.1 mpos
              | none => comps) comps) comps) comps0
  ⟨comps, gridC.cellToComp, 0, 1⟩

theorem foldl_add_map {α : Type} (f : α → Rat) :
    ∀ (l : List α) (a : Rat),
      l.foldl (fun acc x => acc + f x) a = a + (l.map f).sum := by
  intro l
  induction l with
  | nil => intro a; simp
  | cons hd tl ih =>
    intro a
    simp only [List.foldl_cons, List.map_cons, List.sum_cons]
    rw [ih]
    ring

-- Wave (class Wave): undo/redo history of grid snapshots

/-- Wave settings: the numeric limits plus the items partitioned by kind.
An Action is modelled by its applied transform (execute with its argument
already supplied); a Bonus by its onScore hook (identity when absent). -/
structure WaveSettings where
  targetScore : Int
  maxFrames : Nat
  maxRolls : Nat
  gridRows : Nat
  gridCols : Nat
  patterns : List Pattern
  actions : List (Grid → Grid)
  bonuses : List (Score → Grid → Score)

/-- One history snapshot of a Wave: grid, its cached Score, and the action
index that produced it (null for the initial or rerolled grid). -/
structure WEntry where
  grid : Grid
  score : Score
  action : Option Nat

/-- The mutable Wave state: settings, the history list, the cursor, and the
frame / roll / accumulated score counters. roll is an Int because submit
sets it to -1 before the automatic reroll. -/
structure Wave where
  s : WaveSettings
  history : List WEntry
  stateIndex : Nat
  totalScore : Int
  frame : Nat
  roll : Int

/-- Score a grid: Score.create followed by every bonus onScore hook in
catalog order (the private push helper of Wave). -/
def mkScore (s : WaveSettings) (g : Grid) : Score :=
  s.bonuses.foldl (fun sc b => b sc g) (Score.create g s.patterns)

/-- Default history entry for modelled out-of-range indexing. -/
def defaultEntry : WEntry := ⟨⟨0, 0, []⟩, ⟨[], [], 0, 1⟩, none⟩

/-- Wave.push: append the scored snapshot and move the cursor to the tip. -/
def Wave.push (w : Wave) (g : Grid) (action : Option Nat) : Wave :=
  let h' := w.history ++ [⟨g, mkScore w.s g, action⟩]
  { w with history := h', stateIndex := h'.length - 1 }

/-- The Wave constructor: push one (random) initial grid. The random grid
is passed in as g0. -/
def Wave.init (s : WaveSettings) (g0 : Grid) : Wave :=
  Wave.push ⟨s, [], 0, 0, 0, 0⟩ g0 none

/-- The current grid (the grid getter). -/
def Wave.grid (w : Wave) : Grid :=
  (w.history.getD w.stateIndex defaultEntry).grid

/-- The current cached Score (the score getter). -/
def Wave.score (w : Wave) : Score :=
  (w.history.getD w.stateIndex defaultEntry).score

/-- Wave.execute: the source scans history up to the cursor and logs an
error when the action index was already used, but does not return, so
execution proceeds regardless: truncate the redo tail and push the
transformed grid. -/
def Wave.execute (w : Wave) (action : Nat) : Wave :=
  let g := (w.s.actions.getD action id) w.grid
  let w' := { w with history := w.history.take (w.stateIndex + 1) }
  w'.push g (some action)

/-- Wave.hasAction: no history entry at or before the cursor used this
action index. -/
def Wave.hasAction (w : Wave) (action : Nat) : Prop :=
  ∀ i ≤ w.stateIndex, (w.history.getD i defaultEntry).action ≠ some action

instance (w : Wave) (action : Nat) : Decidable (w.hasAction action) := by
  unfold Wave.hasAction; infer_instance

/-- Wave.availableActions: the indexed actions whose index is unused up to
the cursor. -/
def Wave.availableActions (w : Wave) : List ((Grid → Grid) × Nat) :=
  (w.s.actions.enum.map (fun p => (p.2, p.1))).filter
    (fun p => decide (w.hasAction p.2))

/-- Wave.undo: move the cursor back unless at the start. -/
def Wave.undo (w : Wave) : Wave :=
  if 0 < w.stateIndex then { w with stateIndex := w.stateIndex - 1 } else w

/-- Wave.redo: move the cursor forward unless at the tip. -/
def Wave.redo (w : Wave) : Wave :=
  if w.stateIndex < w.history.length - 1 then
    { w with stateIndex := w.stateIndex + 1 }
  else w

/-- Wave status values. -/
inductive WStatus where
  | playing
  | win
  | lose
deriving DecidableEq, Repr

/-- Wave.status, with the module-level DEV_MODE flag passed explicitly. -/
def Wave.status (devMode : Bool) (w : Wave) : WStatus :=
  if devMode then
    (if w.frame < w.s.maxFrames then WStatus.playing else WStatus.win)
  else if w.s.maxFrames ≤ w.frame ∨ w.s.targetScore ≤ w.totalScore then
    (if w.s.targetScore ≤ w.totalScore then WStatus.win else WStatus.lose)
  else WStatus.playing

/-- Wave.reroll: silently no-op when the budget is exhausted; otherwise
increment roll, discard the whole history and push one fresh (random) grid,
passed in as g. -/
def Wave.reroll (g : Grid) (w : Wave) : Wave :=
  if w.roll < (w.s.maxRolls : Int) then
    Wave.push { w with roll := w.roll + 1, history := [] } g none
  else w

/-- Wave.submit: no-op unless playing; otherwise accumulate the score,
advance the frame, and cascade into a free reroll when frames remain and
the target is not yet reached. -/
def Wave.submit (devMode : Bool) (g : Grid) (w : Wave) : Wave :=
  if w.status devMode ≠ WStatus.playing then w
  else
    let w1 := { w with
      totalScore := w.totalScore + (Wave.score w).total,
      frame := w.frame + 1 }
    if w1.frame < w1.s.maxFrames ∧
        (devMode = true ∨ w1.totalScore < w1.s.targetScore) then
      Wave.reroll g { w1 with roll := -1 }
    else w1

/-- C1: for every component accumulator, score equals the ceiling of the
component multiplier times (the sum of its match points, plus
cellIndices.length times cellPoints exactly when it has at least one match
or alwaysScoring is set); and for every score accumulator, total equals the
ceiling of the global multiplier times (the sum of the component scores
plus flatPoints). -/
theorem c1_score_formula :
    (∀ c : ComponentScore,
      c.score = Rat.ceil (c.multiplier *
        ((c.«matches».map (fun m => m.points)).sum +
          if 1 ≤ c.«matches».length ∨ c.alwaysScoring = true then
            (c.cellIndices.length : Rat) * c.cellPoints
          else 0))) ∧
    (∀ sc : Score,
      sc.total = Rat.ceil (sc.multiplier *
        ((sc.components.map (fun comp => (comp.score : Rat))).sum +
          sc.flatPoints))) := by
  constructor
  · intro c
    unfold ComponentScore.score
    rw [foldl_add_map (fun m => m.points) c.«matches» 0]
    by_cases h : 1 ≤ c.«matches».length ∨ c.alwaysScoring = true
    · simp only [if_pos h]
      congr 1
      ring
    · simp only [if_neg h]
      congr 1
      ring
  · intro sc
    unfold Score.total
    rw [foldl_add_map (fun comp => (comp.score : Rat)) sc.components 0]
    congr 2
    ring

-- Concrete fixtures for the Wave claims

/-- A small wave settings value: one identity action, no patterns or
bonuses, target 100, 3 frames, 1 reroll, 1 by 1 grid. -/
def waveSettingsEx : WaveSettings := ⟨100, 3, 1, 1, 1, [], [fun g => g], []⟩

/-- A 1 by 1 filled grid. -/
def gridEx11 : Grid := ⟨1, 1, [Cell.X]⟩

/-- C2: the spec says executing an already-used action index is rejected as
a logged no-op, but the code only logs: after using action 0, it is spent
(hasAction is false), yet a second execute(0) still truncates and pushes a
new history entry, growing the history from 2 to 3 and advancing the
cursor, instead of leaving the state unchanged. -/
theorem c2_execute_spent_action_still_executes :
    ¬ Wave.hasAction ((Wave.init waveSettingsEx gridEx11).execute 0) 0 ∧
    ((Wave.init waveSettingsEx gridEx11).execute 0).history.length = 2 ∧
    (((Wave.init waveSettingsEx gridEx11).execute 0).execute 0).history.length
      = 3 ∧
    (((Wave.init waveSettingsEx gridEx11).execute 0).execute 0).stateIndex
      = 2 := by
  refine ⟨by decide, by decide, by decide, by decide⟩

-- Wave history lemmas for the undo/redo round trip

theorem execute_step (w : Wave) (a : Nat)
    (h : w.stateIndex + 1 = w.history.length) :
    ∃ e : WEntry,
      (w.execute a).history = w.history ++ [e] ∧
      (w.execute a).stateIndex + 1 = (w.execute a).history.length ∧
      (w.execute a).s = w.s ∧ (w.execute a).totalScore = w.totalScore ∧
      (w.execute a).frame = w.frame ∧ (w.execute a).roll = w.roll := by
  refine ⟨⟨(w.s.actions.getD a id) w.grid,
    mkScore w.s ((w.s.actions.getD a id) w.grid), some a⟩, ?_, ?_, rfl, rfl,
    rfl, rfl⟩
  · simp only [Wave.execute, Wave.push]
    rw [h, List.take_length]
  · simp only [Wave.execute, Wave.push]
    simp only [List.length_append, List.length_singleton]
    omega

theorem execs_shape (as : List Nat) :
    ∀ w : Wave, w.stateIndex + 1 = w.history.length →
    ∃ suffix : List WEntry,
      (as.foldl Wave.execute w).history = w.history ++ suffix ∧
      suffix.length = as.length ∧
      (as.foldl Wave.execute w).stateIndex + 1 =
        (as.foldl Wave.execute w).history.length ∧
      (as.foldl Wave.execute w).s = w.s ∧
      (as.foldl Wave.execute w).totalScore = w.totalScore ∧
      (as.foldl Wave.execute w).frame = w.frame ∧
      (as.foldl Wave.execute w).roll = w.roll := by
  induction as with
  | nil =>
    intro w h
    exact ⟨[], by simp, rfl, h, rfl, rfl, rfl, rfl⟩
  | cons a as ih =>
    intro w h
    obtain ⟨e, he, htip, hs, ht, hf, hr⟩ := execute_step w a h
    obtain ⟨suffix, hh2, hl2, htip2, hs2, ht2, hf2, hr2⟩ :=
      ih (w.execute a) htip
    refine ⟨e :: suffix, ?_, by simp [hl2], htip2, hs2.trans hs,
      ht2.trans ht, hf2.trans hf, hr2.trans hr⟩
    show (List.foldl Wave.execute (w.execute a) as).history = _
    rw [hh2, he]
    simp

theorem undo_iter (k : Nat) :
    ∀ w : Wave, k ≤ w.stateIndex →
      Wave.undo^[k] w = { w with stateIndex := w.stateIndex - k } := by
  induction k with
  | zero =>
    intro w _
    rw [Function.iterate_zero_apply]
    rfl
  | succ k ih =>
    intro w h
    rw [Function.iterate_succ_apply]
    have hu : Wave.undo w = { w with stateIndex := w.stateIndex - 1 } := by
      unfold Wave.undo
      rw [if_pos (by omega)]
    rw [hu, ih { w with stateIndex := w.stateIndex - 1 } (by simp; omega)]
    show ({ w with stateIndex := w.stateIndex - 1 - k } : Wave) = _
    congr 1
    omega

theorem redo_iter (k : Nat) :
    ∀ w : Wave, w.stateIndex + k + 1 ≤ w.history.length →
      Wave.redo^[k] w = { w with stateIndex := w.stateIndex + k } := by
  induction k with
  | zero =>
    intro w _
    rw [Function.iterate_zero_apply]
    rfl
  | succ k ih =>
    intro w h
    rw [Function.iterate_succ_apply]
    have hu : Wave.redo w = { w with stateIndex := w.stateIndex + 1 } := by
      unfold Wave.redo
      rw [if_pos (by omega)]
    rw [hu, ih { w with stateIndex := w.stateIndex + 1 } (by simp; omega)]
    show ({ w with stateIndex := w.stateIndex + 1 + k } : Wave) = _
    congr 1
    omega

/-- C5: after any N executes from a fresh Wave, N undos restore the initial
grid and score, N redos then restore exactly the pre-undo state (the same
history entries, hence the same cached Score values, none recomputed),
undo at the start and redo at the tip are no-ops, and undo and redo never
change the history, only the cursor. -/
theorem c5_undo_redo_roundtrip (s : WaveSettings) (g0 : Grid) (as : List Nat)
    (hval : ∀ a ∈ as, a < s.actions.length) :
    (Wave.undo^[as.length] (as.foldl Wave.execute (Wave.init s g0))).grid =
      (Wave.init s g0).grid ∧
    (Wave.undo^[as.length] (as.foldl Wave.execute (Wave.init s g0))).score =
      (Wave.init s g0).score ∧
    Wave.redo^[as.length]
        (Wave.undo^[as.length] (as.foldl Wave.execute (Wave.init s g0))) =
      as.foldl Wave.execute (Wave.init s g0) ∧
    (Wave.undo^[as.length] (as.foldl Wave.execute (Wave.init s g0))).history =
      (as.foldl Wave.execute (Wave.init s g0)).history ∧
    (∀ w : Wave, w.stateIndex = 0 → w.undo = w) ∧
    (∀ w : Wave, w.stateIndex = w.history.length - 1 → w.redo = w) ∧
    (∀ w : Wave, w.undo.history = w.history ∧ w.redo.history = w.history) := by
  have hinit : (Wave.init s g0).stateIndex + 1 =
      (Wave.init s g0).history.length := rfl
  obtain ⟨suffix, hh, hslen, htip, _, _, _, _⟩ :=
    execs_shape as (Wave.init s g0) hinit
  have hlen1 : (Wave.init s g0).history.length = 1 := rfl
  have hw1len : (as.foldl Wave.execute (Wave.init s g0)).history.length =
      1 + as.length := by rw [hh]; simp [hslen, hlen1]
  have hw1si : (as.foldl Wave.execute (Wave.init s g0)).stateIndex =
      as.length := by omega
  have hundo := undo_iter as.length (as.foldl Wave.execute (Wave.init s g0))
    (by omega)
  rw [hw1si] at hundo
  have hgetD0 : ∀ d, (as.foldl Wave.execute (Wave.init s g0)).history.getD 0 d
      = (Wave.init s g0).history.getD 0 d := by
    intro d
    rw [hh]
    have : (Wave.init s g0).history =
        [(Wave.init s g0).history.getD 0 defaultEntry] := rfl
    show (((Wave.init s g0).history) ++ suffix).getD 0 d = _
    rw [this]
    simp [List.getD]
  refine ⟨?_, ?_, ?_, ?_, ?_, ?_, ?_⟩
  · rw [hundo]
    show ((as.foldl Wave.execute (Wave.init s g0)).history.getD
      (as.length - as.length) defaultEntry).grid = _
    rw [Nat.sub_self, hgetD0]
    rfl
  · rw [hundo]
    show ((as.foldl Wave.execute (Wave.init s g0)).history.getD
      (as.length - as.length) defaultEntry).score = _
    rw [Nat.sub_self, hgetD0]
    rfl
  · rw [hundo]
    have hredo := redo_iter as.length
      { as.foldl Wave.execute (Wave.init s g0) with
        stateIndex := as.length - as.length }
      (by
        show as.length - as.length + as.length + 1 ≤
          (as.foldl Wave.execute (Wave.init s g0)).history.length
        omega)
    rw [hredo]
    show ({ as.foldl Wave.execute (Wave.init s g0) with
      stateIndex := as.length - as.length + as.length } : Wave) =
      as.foldl Wave.execute (Wave.init s g0)
    rw [Nat.sub_self, Nat.zero_add, ← hw1si]
  · rw [hundo]
  · intro w h
    unfold Wave.undo
    rw [if_neg (by omega)]
  · intro w h
    unfold Wave.redo
    rw [if_neg (by omega)]
  · intro w
    constructor
    · unfold Wave.undo
      split <;> rfl
    · unfold Wave.redo
      split <;> rfl

/-- Witness for C5 with one executed action on a concrete wave. -/
theorem c5_undo_redo_roundtrip_witness :
    (Wave.undo^[[0].length]
      ([0].foldl Wave.execute (Wave.init waveSettingsEx gridEx11))).grid =
      (Wave.init waveSettingsEx gridEx11).grid :=
  (c5_undo_redo_roundtrip waveSettingsEx gridEx11 [0] (by decide)).1

/-- C6: reroll is a silent no-op when the budget is exhausted; otherwise it
increments roll, discards the entire history, pushes one fresh (random)
grid as the sole entry with cursor 0, after which every action index is
available again. -/
theorem c6_reroll_spec (w : Wave) (g : Grid) :
    ((w.s.maxRolls : Int) ≤ w.roll → Wave.reroll g w = w) ∧
    (w.roll < (w.s.maxRolls : Int) →
      (Wave.reroll g w).roll = w.roll + 1 ∧
      (Wave.reroll g w).history = [⟨g, mkScore w.s g, none⟩] ∧
      (Wave.reroll g w).stateIndex = 0 ∧
      (Wave.reroll g w).availableActions =
        w.s.actions.enum.map (fun p => (p.2, p.1))) := by
  constructor
  · intro h
    unfold Wave.reroll
    rw [if_neg (by omega)]
  · intro h
    have hr : Wave.reroll g w =
        Wave.push { w with roll := w.roll + 1, history := [] } g none := by
      unfold Wave.reroll
      rw [if_pos h]
    refine ⟨by rw [hr]; rfl, by rw [hr]; rfl, by rw [hr]; rfl, ?_⟩
    rw [hr]
    apply List.filter_eq_self.mpr
    intro p hp
    rw [decide_eq_true_iff]
    intro i hi
    have hi0 : i = 0 := by
      have : (Wave.push { w with roll := w.roll + 1, history := [] } g
        none).stateIndex = 0 := rfl
      omega
    rw [hi0]
    show ((Wave.push { w with roll := w.roll + 1, history := [] } g
      none).history.getD 0 defaultEntry).action ≠ some p.2
    have heq : ((Wave.push { w with roll := w.roll + 1, history := [] } g
      none).history.getD 0 defaultEntry).action = none := rfl
    rw [heq]
    simp

/-- Witness for C6 on a concrete wave with an unused reroll budget. -/
theorem c6_reroll_spec_witness :
    (Wave.reroll gridEx11 (Wave.init waveSettingsEx gridEx11)).roll =
        (Wave.init waveSettingsEx gridEx11).roll + 1 ∧
      (Wave.reroll gridEx11 (Wave.init waveSettingsEx gridEx11)).history =
        [⟨gridEx11, mkScore (Wave.init waveSettingsEx gridEx11).s gridEx11,
          none⟩] ∧
      (Wave.reroll gridEx11 (Wave.init waveSettingsEx gridEx11)).stateIndex
        = 0 ∧
      Wave.availableActions
          (Wave.reroll gridEx11 (Wave.init waveSettingsEx gridEx11)) =
        (Wave.init waveSettingsEx gridEx11).s.actions.enum.map
          (fun p => (p.2, p.1)) :=
  (c6_reroll_spec (Wave.init waveSettingsEx gridEx11) gridEx11).2 (by decide)

/-- The Wave history invariant: the history is non-empty and the cursor is
in range. -/
def WaveInv (w : Wave) : Prop :=
  0 < w.history.length ∧ w.stateIndex < w.history.length

/-- C10: the invariant holds after construction and is preserved by
execute, undo, redo, submit and reroll, so the grid and score accessors
always read an existing snapshot. -/
theorem c10_wave_invariant :
    (∀ (s : WaveSettings) (g0 : Grid), WaveInv (Wave.init s g0)) ∧
    (∀ w : Wave, WaveInv w →
      ∀ (a : Nat) (g : Grid) (dm : Bool),
        WaveInv (w.execute a) ∧ WaveInv w.undo ∧ WaveInv w.redo ∧
        WaveInv (Wave.submit dm g w) ∧ WaveInv (Wave.reroll g w) ∧
        ∃ e, w.history.get? w.stateIndex = some e ∧
          w.grid = e.grid ∧ w.score = e.score) := by
  have hpush : ∀ (w : Wave) (g : Grid) (act : Option Nat),
      WaveInv (Wave.push w g act) := by
    intro w g act
    constructor
    · show 0 < (w.history ++ [_]).length
      simp
    · show (w.history ++ [_]).length - 1 < (w.history ++ [_]).length
      simp
  constructor
  · intro s g0
    exact hpush _ g0 none
  · intro w hw a g dm
    obtain ⟨h1, h2⟩ := hw
    refine ⟨hpush _ _ _, ?_, ?_, ?_, ?_, ?_⟩
    · unfold Wave.undo
      split
      · exact ⟨h1, by simp; omega⟩
      · exact ⟨h1, h2⟩
    · unfold Wave.redo
      split
      · refine ⟨h1, ?_⟩
        show w.stateIndex + 1 < w.history.length
        omega
      · exact ⟨h1, h2⟩
    · unfold Wave.submit
      split
      · exact ⟨h1, h2⟩
      · dsimp only
        split
        · unfold Wave.reroll
          split
          · exact hpush _ _ _
          · exact ⟨h1, h2⟩
        · exact ⟨h1, h2⟩
    · unfold Wave.reroll
      split
      · exact hpush _ _ _
      · exact ⟨h1, h2⟩
    · have hsome : w.history.get? w.stateIndex =
          some (w.history.getD w.stateIndex defaultEntry) := by
        rw [List.get?_eq_getElem?, List.getD_eq_getElem?_getD,
          List.getElem?_eq_getElem h2]
        rfl
      exact ⟨w.history.getD w.stateIndex defaultEntry, hsome, rfl, rfl⟩

/-- Witness for C10: the invariant holds after an undo on a concrete fresh
wave. -/
theorem c10_wave_invariant_witness :
    WaveInv (Wave.undo (Wave.init waveSettingsEx gridEx11)) :=
  ((c10_wave_invariant.2 (Wave.init waveSettingsEx gridEx11)
    ⟨by decide, by decide⟩ 0 gridEx11 false)).2.1

-- Items catalog data model (shared by Select and Run)

/-- Item rarity. -/
inductive Freq where
  | common
  | uncommon
  | rare
deriving DecidableEq, Repr

/-- Rarity chance weights used by Select phases. -/
structure Chance where
  common : Rat
  uncommon : Rat
  rare : Rat
deriving DecidableEq, Repr

/-- chance[item.freq] lookup. -/
def Chance.get (c : Chance) : Freq → Rat
  | Freq.common => c.common
  | Freq.uncommon => c.uncommon
  | Freq.rare => c.rare

/-- The fields shared by every catalog item. -/
structure ItemBase where
  name : String
  freq : Freq
  freqMultiplier : Rat
  priority : Int
  limit : Nat

/-- The kind discriminant of an item. -/
inductive ItemKind where
  | action
  | pattern
  | bonus
deriving DecidableEq, Repr

/-- The Item tagged union: an Action carries its applied grid transform, a
Pattern its template grid and points, a Bonus its optional onScore hook. -/
inductive Item where
  | action (b : ItemBase) (exec : Grid → Grid)
  | pattern (b : ItemBase) (grid : Grid) (points : Rat)
  | bonus (b : ItemBase) (onScore : Option (Score → Grid → Score))

def Item.base : Item → ItemBase
  | Item.action b _ => b
  | Item.pattern b _ _ => b
  | Item.bonus b _ => b

def Item.name (it : Item) : String := it.base.name
def Item.freq (it : Item) : Freq := it.base.freq
def Item.freqMultiplier (it : Item) : Rat := it.base.freqMultiplier
def Item.priority (it : Item) : Int := it.base.priority
def Item.limit (it : Item) : Nat := it.base.limit

def Item.kind : Item → ItemKind
  | Item.action _ _ => ItemKind.action
  | Item.pattern _ _ _ => ItemKind.pattern
  | Item.bonus _ _ => ItemKind.bonus

/-- Default item for modelled out-of-range catalog indexing. -/
def defaultItem : Item := Item.bonus ⟨"", Freq.common, 1, 0, 0⟩ none

/-- items.reduce((c, i) => c + (i.name === item.name), 0): the number of
copies of a name held in an inventory. -/
def countByName (items : List Item) (name : String) : Nat :=
  items.countP (fun i => i.name == name)

-- Select: weighted sampling without replacement

/-- The cumulative-weight scan loop of sampleWeighted, with the fallback to
the last element when the scan runs out. -/
def sampleWeightedGo (d : Nat) : List Nat → List Rat → Rat → Nat
  | [], _, _ => d
  | [x], _, _ => x
  | x :: y :: xs, [], _ => (x :: y :: xs).getLastD d
  | x :: y :: xs, w :: ws, r =>
    if r < w then x else sampleWeightedGo d (y :: xs) ws (r - w)

/-- sampleWeighted from the source, with the unit random draw u passed in:
r = u * totalWeight, then the cumulative scan. -/
def sampleWeighted (d : Nat) (items : List Nat) (weights : List Rat)
    (u : Rat) : Nat :=
  sampleWeightedGo d items weights (u * weights.foldl (fun a b => a + b) 0)

theorem getLastD_mem {l : List Nat} (h : l ≠ []) (d : Nat) :
    l.getLastD d ∈ l := by
  induction l with
  | nil => exact absurd rfl h
  | cons x xs ih =>
    cases xs with
    | nil => simp
    | cons y ys =>
      rw [List.getLastD_cons]
      exact List.mem_cons_of_mem x (ih (by simp))

theorem sampleWeightedGo_mem (d : Nat) :
    ∀ l : List Nat, l ≠ [] → ∀ (ws : List Rat) (r : Rat),
      sampleWeightedGo d l ws r ∈ l := by
  intro l
  induction l with
  | nil => intro h; exact absurd rfl h
  | cons x xs ih =>
    intro _ ws r
    cases xs with
    | nil => simp [sampleWeightedGo]
    | cons y ys =>
      cases ws with
      | nil =>
        show (x :: y :: ys).getLastD d ∈ x :: y :: ys
        exact getLastD_mem (by simp) d
      | cons w ws2 =>
        show (if r < w then x else sampleWeightedGo d (y :: ys) ws2 (r - w))
          ∈ x :: y :: ys
        split
        · simp
        · exact List.mem_cons_of_mem x (ih (by simp) ws2 (r - w))

theorem sampleWeighted_mem (d : Nat) (l : List Nat) (h : l ≠ [])
    (ws : List Rat) (u : Rat) : sampleWeighted d l ws u ∈ l :=
  sampleWeightedGo_mem d l h ws _

/-- The candidate filter of Select.sample over catalog indices: matching
the kind filter, inventory count below the limit, and not already offered.
JavaScript object identity on catalog entries is modelled by the catalog
index. -/
def eligibleIdxs (catalog items : List Item) (only : Option ItemKind)
    (offers : List Nat) : List Nat :=
  (List.range catalog.length).filter fun ci =>
    decide ((only = none ∨ only = some (catalog.getD ci defaultItem).kind) ∧
      countByName items (catalog.getD ci defaultItem).name <
        (catalog.getD ci defaultItem).limit ∧
      ci ∉ offers)

/-- The sampling weight of a candidate. -/
def weightOf (chance : Chance) (catalog : List Item) (ci : Nat) : Rat :=
  chance.get (catalog.getD ci defaultItem).freq *
    (catalog.getD ci defaultItem).freqMultiplier

/-- The offer loop of Select.sample: up to n more draws, stopping early
when no candidate remains; k indexes the random stream. -/
def sampleLoop (catalog items : List Item) (chance : Chance)
    (only : Option ItemKind) (rs : Nat → Rat) :
    Nat → Nat → List Nat → List Nat
  | 0, _, offers => offers
  | n + 1, k, offers =>
    let cands := eligibleIdxs catalog items only offers
    if cands.isEmpty then offers
    else
      sampleLoop catalog items chance only rs n (k + 1)
        (offers ++
          [sampleWeighted 0 cands (cands.map (weightOf chance catalog))
            (rs k)])

/-- The selection choice of a resolved Select phase. -/
inductive SelChoice where
  | idx (i : Nat)
  | skip

/-- The Select phase object: inventory snapshot, offers, player choice. -/
structure Select where
  items : List Item
  offers : List Item
  selected : Option SelChoice

/-- Select.sample from the source: repeatedly draw one eligible catalog
item without replacement, weighted by chance[freq] * freqMultiplier,
stopping early when no candidate remains. -/
def Select.sample (catalog items : List Item) (count : Nat) (chance : Chance)
    (only : Option ItemKind) (rs : Nat → Rat) : Select :=
  ⟨items,
    (sampleLoop catalog items chance only rs count 0 []).map
      (fun ci => catalog.getD ci defaultItem),
    none⟩

/-- Static eligibility of one offered index (the parts of the candidate
filter that do not depend on the running offer list). -/
def OfferOk (catalog items : List Item) (only : Option ItemKind)
    (ci : Nat) : Prop :=
  ci < catalog.length ∧
    (only = none ∨ only = some (catalog.getD ci defaultItem).kind) ∧
    countByName items (catalog.getD ci defaultItem).name <
      (catalog.getD ci defaultItem).limit

theorem mem_eligibleIdxs {catalog items : List Item} {only : Option ItemKind}
    {offers : List Nat} {ci : Nat} :
    ci ∈ eligibleIdxs catalog items only offers ↔
      OfferOk catalog items only ci ∧ ci ∉ offers := by
  unfold eligibleIdxs OfferOk
  simp [List.mem_filter, List.mem_range]
  tauto

theorem sampleLoop_spec (catalog items : List Item) (chance : Chance)
    (only : Option ItemKind) (rs : Nat → Rat) :
    ∀ (n k : Nat) (offers : List Nat),
      offers.Nodup →
      (∀ ci ∈ offers, OfferOk catalog items only ci) →
      (sampleLoop catalog items chance only rs n k offers).Nodup ∧
      (∀ ci ∈ sampleLoop catalog items chance only rs n k offers,
        OfferOk catalog items only ci) ∧
      (sampleLoop catalog items chance only rs n k offers).length ≤
        offers.length + n ∧
      ((sampleLoop catalog items chance only rs n k offers).length <
          offers.length + n →
        eligibleIdxs catalog items only
          (sampleLoop catalog items chance only rs n k offers) = []) := by
  intro n
  induction n with
  | zero =>
    intro k offers hnd hok
    refine ⟨hnd, hok, by simp [sampleLoop], ?_⟩
    intro hlt
    simp [sampleLoop] at hlt
  | succ n ih =>
    intro k offers hnd hok
    by_cases hemp : (eligibleIdxs catalog items only offers).isEmpty
    · have hstep0 : sampleLoop catalog items chance only rs (n + 1) k offers
          = offers := by
        simp only [sampleLoop]
        rw [if_pos hemp]
      rw [hstep0]
      refine ⟨hnd, hok, by omega, ?_⟩
      intro _
      exact List.isEmpty_iff.mp hemp
    · have hne : eligibleIdxs catalog items only offers ≠ [] := by
        intro h
        rw [h] at hemp
        exact hemp rfl
      have hmem : sampleWeighted 0 (eligibleIdxs catalog items only offers)
          ((eligibleIdxs catalog items only offers).map
            (weightOf chance catalog)) (rs k) ∈
          eligibleIdxs catalog items only offers :=
        sampleWeighted_mem 0 _ hne _ _
      obtain ⟨hok2, hnin⟩ := mem_eligibleIdxs.mp hmem
      have hnd2 : (offers ++ [sampleWeighted 0
          (eligibleIdxs catalog items only offers)
          ((eligibleIdxs catalog items only offers).map
            (weightOf chance catalog)) (rs k)]).Nodup := by
        rw [List.nodup_append]
        exact ⟨hnd, List.nodup_singleton _,
          fun a ha hb => hnin ((List.mem_singleton.mp hb) ▸ ha)⟩
      have hok3 : ∀ ci ∈ offers ++ [sampleWeighted 0
          (eligibleIdxs catalog items only offers)
          ((eligibleIdxs catalog items only offers).map
            (weightOf chance catalog)) (rs k)],
          OfferOk catalog items only ci := by
        intro ci hci
        rcases List.mem_append.mp hci with hl | hr
        · exact hok ci hl
        · rw [List.mem_singleton.mp hr]
          exact hok2
      obtain ⟨r1, r2, r3, r4⟩ := ih (k + 1) _ hnd2 hok3
      have hstep : sampleLoop catalog items chance only rs (n + 1) k offers =
          sampleLoop catalog items chance only rs n (k + 1)
            (offers ++ [sampleWeighted 0
              (eligibleIdxs catalog items only offers)
              ((eligibleIdxs catalog items only offers).map
                (weightOf chance catalog)) (rs k)]) := by
        simp only [sampleLoop]
        rw [if_neg hemp]
      rw [hstep]
      refine ⟨r1, r2, ?_, ?_⟩
      · simp only [List.length_append, List.length_singleton] at r3
        omega
      · intro hlt
        apply r4
        simp only [List.length_append, List.length_singleton]
        omega

/-- C8: Select.sample never offers an item whose inventory count has
reached its limit, never offers the same catalog item twice in one call
(catalog identity = catalog index), respects the kind filter, and when no
eligible candidate remains it stops early and returns fewer than count
offers, never an error (the function is total). -/
theorem c8_sample_spec (catalog items : List Item) (count : Nat)
    (chance : Chance) (only : Option ItemKind) (rs : Nat → Rat) :
    ∃ idxs : List Nat,
      (Select.sample catalog items count chance only rs).offers =
        idxs.map (fun ci => catalog.getD ci defaultItem) ∧
      idxs.Nodup ∧
      (∀ ci ∈ idxs, ci < catalog.length ∧
        (only = none ∨ only = some (catalog.getD ci defaultItem).kind) ∧
        countByName items (catalog.getD ci defaultItem).name <
          (catalog.getD ci defaultItem).limit) ∧
      (Select.sample catalog items count chance only rs).offers.length ≤
        count ∧
      (idxs.length < count →
        eligibleIdxs catalog items only idxs = []) := by
  obtain ⟨r1, r2, r3, r4⟩ :=
    sampleLoop_spec catalog items chance only rs count 0 []
      List.nodup_nil (by intro ci h; exact absurd h (List.not_mem_nil ci))
  refine ⟨sampleLoop catalog items chance only rs count 0 [], rfl, r1,
    r2, ?_, ?_⟩
  · show (List.map _ _).length ≤ count
    rw [List.length_map]
    simpa using r3
  · intro h
    exact r4 (by simpa using h)

/-- Witness for C8: a catalog whose only item has limit 0 yields an empty
offer list, and the early-stop characterization applies. -/
theorem c8_sample_spec_witness :
    ∃ idxs : List Nat,
      (Select.sample [defaultItem] [] 3 ⟨1, 1, 1⟩ none
          (fun _ => 0)).offers =
        idxs.map (fun ci => ([defaultItem] : List Item).getD ci defaultItem) ∧
      idxs.Nodup ∧
      (∀ ci ∈ idxs, ci < ([defaultItem] : List Item).length ∧
        ((none : Option ItemKind) = none ∨ (none : Option ItemKind) =
          some (([defaultItem] : List Item).getD ci defaultItem).kind) ∧
        countByName [] (([defaultItem] : List Item).getD ci
            defaultItem).name <
          (([defaultItem] : List Item).getD ci defaultItem).limit) ∧
      (Select.sample [defaultItem] [] 3 ⟨1, 1, 1⟩ none
          (fun _ => 0)).offers.length ≤ 3 ∧
      (idxs.length < 3 →
        eligibleIdxs [defaultItem] [] none idxs = []) :=
  c8_sample_spec [defaultItem] [] 3 ⟨1, 1, 1⟩ none (fun _ => 0)

-- Run: the scripted phase state machine

/-- Terminal run result. -/
inductive RunResult where
  | win
  | lose
deriving DecidableEq, Repr

/-- A schedule phase descriptor. -/
inductive Phase where
  | wave (targetScore : Int)
  | select (chance : Chance) (only : Option ItemKind)

/-- Run settings (interface RunSettings). -/
structure RunSettings where
  items : List Item
  schedule : List Phase
  maxFrames : Nat
  maxRolls : Nat
  gridRows : Nat
  gridCols : Nat
  offers : Nat

/-- The mutable Run state: settings, level name, the sorted inventory, and
the phase cursor (starts at -1, hence an Int). -/
structure Run where
  s : RunSettings
  level : String
  items : List Item
  phaseIndex : Int

/-- A phase object as returned by Run.next. -/
inductive PhaseObj where
  | wave (w : Wave)
  | select (sel : Select)
  | outcome (r : RunResult)

/-- items.sort((a, b) => a.priority - b.priority), as a stable sort. -/
def sortItems (l : List Item) : List Item :=
  l.mergeSort (fun a b => decide (a.priority ≤ b.priority))

/-- The Run constructor: copy and priority-sort the starting items, phase
cursor -1. -/
def Run.start (s : RunSettings) (level : String) : Run :=
  ⟨s, level, sortItems s.items, -1⟩

/-- The WaveSettings built by Run.next for a wave phase: the inventory
partitioned by kind plus the numeric limits. -/
def toWaveSettings (run : Run) (target : Int) : WaveSettings :=
  ⟨target, run.s.maxFrames, run.s.maxRolls, run.s.gridRows, run.s.gridCols,
    run.items.filterMap (fun it => match it with
      | Item.pattern b gr p => some ⟨b.name, gr, p⟩
      | _ => none),
    run.items.filterMap (fun it => match it with
      | Item.action _ f => some f
      | _ => none),
    run.items.filterMap (fun it => match it with
      | Item.bonus _ (some h) => some h
      | Item.bonus _ none => some (fun sc _ => sc)
      | _ => none)⟩

/-- The advance-and-return-next-phase tail of Run.next: step the cursor,
return Outcome(win) past the end of the schedule, otherwise build the next
Select (sampling with the random stream rs) or Wave (seeded with the
random grid g). -/
def Run.advance (catalog : List Item) (run : Run) (g : Grid)
    (rs : Nat → Rat) : Except String (Run × PhaseObj) :=
  let run2 := { run with phaseIndex := run.phaseIndex + 1 }
  if (run2.s.schedule.length : Int) ≤ run2.phaseIndex then
    Except.ok (run2, PhaseObj.outcome RunResult.win)
  else
    match run2.s.schedule.getD run2.phaseIndex.toNat (Phase.wave 0) with
    | Phase.select chance only =>
      Except.ok (run2, PhaseObj.select
        (Select.sample catalog run2.items run2.s.offers chance only rs))
    | Phase.wave target =>
      Except.ok (run2, PhaseObj.wave (Wave.init (toWaveSettings run2 target) g))

/-- Run.next from the source: handle the previous phase result (throwing
when it is missing after the first call; collecting a selected item;
short-circuiting to Outcome(lose) on a lost wave), then advance. -/
def Run.next (devMode : Bool) (catalog : List Item) (run : Run)
    (lastPhase : Option PhaseObj) (g : Grid) (rs : Nat → Rat) :
    Except String (Run × PhaseObj) :=
  if 0 ≤ run.phaseIndex then
    match lastPhase with
    | none => Except.error "Must provide lastPhase, unless it is the first phase"
    | some (PhaseObj.select sel) =>
      match sel.selected with
      | some (SelChoice.idx i) =>
        Run.advance catalog
          { run with
            items := sortItems (run.items ++ [sel.offers.getD i defaultItem]) }
          g rs
      | _ => Run.advance catalog run g rs
    | some (PhaseObj.wave w) =>
      if Wave.status devMode w = WStatus.lose then
        Except.ok (run, PhaseObj.outcome RunResult.lose)
      else Run.advance catalog run g rs
    | some (PhaseObj.outcome _) => Run.advance catalog run g rs
  else Run.advance catalog run g rs

theorem advance_win (catalog : List Item) (run : Run) (g : Grid)
    (rs : Nat → Rat) (h : (run.s.schedule.length : Int) ≤ run.phaseIndex + 1) :
    Run.advance catalog run g rs =
      Except.ok ({ run with phaseIndex := run.phaseIndex + 1 },
        PhaseObj.outcome RunResult.win) := by
  unfold Run.advance
  dsimp only
  rw [if_pos h]

/-- C7: when the previous phase is a Wave with status lose, Run.next
returns a terminal Outcome(lose) immediately, with the run (and its phase
cursor) unchanged, regardless of the remaining schedule; and whenever the
cursor advances past the end of the schedule (previous phase present and
not a losing wave, or the very first call), Run.next returns a terminal
Outcome(win) with the cursor advanced by one. -/
theorem c7_run_next_lose_win (devMode : Bool) (catalog : List Item)
    (run : Run) (g : Grid) (rs : Nat → Rat) :
    (∀ w : Wave, 0 ≤ run.phaseIndex →
      Wave.status devMode w = WStatus.lose →
      Run.next devMode catalog run (some (PhaseObj.wave w)) g rs =
        Except.ok (run, PhaseObj.outcome RunResult.lose)) ∧
    (∀ lp : PhaseObj,
      (run.s.schedule.length : Int) ≤ run.phaseIndex + 1 →
      (∀ w : Wave, lp = PhaseObj.wave w →
        Wave.status devMode w ≠ WStatus.lose) →
      ∃ run2 : Run,
        Run.next devMode catalog run (some lp) g rs =
          Except.ok (run2, PhaseObj.outcome RunResult.win) ∧
        run2.phaseIndex = run.phaseIndex + 1) ∧
    (run.phaseIndex < 0 →
      (run.s.schedule.length : Int) ≤ run.phaseIndex + 1 →
      Run.next devMode catalog run none g rs =
        Except.ok ({ run with phaseIndex := run.phaseIndex + 1 },
          PhaseObj.outcome RunResult.win)) := by
  refine ⟨?_, ?_, ?_⟩
  · intro w h0 hlose
    unfold Run.next
    rw [if_pos h0]
    show (if Wave.status devMode w = WStatus.lose then _ else _) = _
    rw [if_pos hlose]
  · intro lp hlen hnl
    by_cases h0 : 0 ≤ run.phaseIndex
    · cases lp with
      | wave w =>
        refine ⟨{ run with phaseIndex := run.phaseIndex + 1 }, ?_, rfl⟩
        unfold Run.next
        rw [if_pos h0]
        show (if Wave.status devMode w = WStatus.lose then _ else _) = _
        rw [if_neg (hnl w rfl)]
        exact advance_win catalog run g rs hlen
      | select sel =>
        cases hsel : sel.selected with
        | none =>
          refine ⟨{ run with phaseIndex := run.phaseIndex + 1 }, ?_, rfl⟩
          unfold Run.next
          rw [if_pos h0]
          show (match sel.selected with
            | some (SelChoice.idx i) => _
            | _ => Run.advance catalog run g rs) = _
          rw [hsel]
          exact advance_win catalog run g rs hlen
        | some c =>
          cases c with
          | idx i =>
            refine ⟨{ run with
              items := sortItems (run.items ++ [sel.offers.getD i defaultItem]),
              phaseIndex := run.phaseIndex + 1 }, ?_, rfl⟩
            unfold Run.next
            rw [if_pos h0]
            show (match sel.selected with
              | some (SelChoice.idx i) => Run.advance catalog
                  { run with items :=
                    sortItems (run.items ++ [sel.offers.getD i defaultItem]) }
                  g rs
              | _ => Run.advance catalog run g rs) = _
            rw [hsel]
            exact advance_win catalog _ g rs hlen
          | skip =>
            refine ⟨{ run with phaseIndex := run.phaseIndex + 1 }, ?_, rfl⟩
            unfold Run.next
            rw [if_pos h0]
            show (match sel.selected with
              | some (SelChoice.idx i) => _
              | _ => Run.advance catalog run g rs) = _
            rw [hsel]
            exact advance_win catalog run g rs hlen
      | outcome r =>
        refine ⟨{ run with phaseIndex := run.phaseIndex + 1 }, ?_, rfl⟩
        unfold Run.next
        rw [if_pos h0]
        exact advance_win catalog run g rs hlen
    · refine ⟨{ run with phaseIndex := run.phaseIndex + 1 }, ?_, rfl⟩
      unfold Run.next
      rw [if_neg h0]
      exact advance_win catalog run g rs hlen
  · intro h0 hlen
    unfold Run.next
    rw [if_neg (by omega)]
    exact advance_win catalog run g rs hlen

/-- A concrete run with an empty schedule and cursor 0, and a concrete
lost wave, for the C7 witness. -/
def runEx : Run := ⟨⟨[], [], 3, 1, 9, 9, 3⟩, "level", [], 0⟩

/-- A wave that has lost: no frames left and target not reached. -/
def waveLoseEx : Wave := ⟨⟨1, 0, 0, 1, 1, [], [], []⟩, [], 0, 0, 0, 0⟩

/-- Witness for C7: Run.next on the lost wave returns Outcome(lose) with
the run unchanged. -/
theorem c7_run_next_lose_win_witness :
    Run.next false [] runEx (some (PhaseObj.wave waveLoseEx)) gridEx11
        (fun _ => 0) =
      Except.ok (runEx, PhaseObj.outcome RunResult.lose) :=
  (c7_run_next_lose_win false [] runEx gridEx11 (fun _ => 0)).1 waveLoseEx
    (by decide) (by decide)

end UnnamedGame
